import Mathlib

/-!
Verification of the Tilck core subsystems against their specification:
kernel mutex (kmutex.c), IRQ dispatch (irq.c), FAT driver (fat32.c) and
the VFS stat/getdents layer. Each C function is shallowly embedded as an
executable Lean definition; machine integers are modelled as Nat/Int.
-/

set_option maxHeartbeats 1000000

/-! ## Kernel mutex (src/kernel/kmutex.c) -/

/-- Task states, from the task model (running/runnable/sleeping/zombie). -/
inductive task_state where
  | running
  | runnable
  | sleeping
  | zombie
deriving DecidableEq, Repr

/-- Modelled from the spec: a task with its wait-object slot. `wobj = some mid`
means the task's wait object is (WOBJ_KMUTEX, the mutex with id `mid`);
the C code compares `pos->wobj.ptr == m` by pointer, modelled by mutex id. -/
structure task_info where
  tid : Nat
  state : task_state
  wobj : Option Nat
deriving DecidableEq, Repr

/-- The kmutex structure: owner (by task id), flags bit KMUTEX_FL_RECURSIVE,
and the lock counter (used only when recursive). -/
structure kmutex where
  id : Nat
  recursive : Bool
  owner_task : Option Nat
  lock_count : Nat
deriving DecidableEq, Repr

/-- kmutex_init: zero the struct, store a fresh id and the flags. -/
def kmutex_init (mid : Nat) (recur : Bool) : kmutex :=
  { id := mid, recursive := recur, owner_task := none, lock_count := 0 }

/-- kmutex_is_curr_task_holding_lock: `m->owner_task == get_curr_task()`. -/
def kmutex_is_curr_task_holding_lock (curr : Nat) (m : kmutex) : Bool :=
  m.owner_task = some curr

/-- kmutex_lock, embedded over (mutex, sleeping-task list). The contended
path sets the current task's wait object to the mutex, puts it to sleep and
appends it to the sleeping list (task_change_state is external; modelled
from the spec's sleep-queue contract). -/
def kmutex_lock (curr : Nat) (m : kmutex) (ts : List task_info) :
    kmutex × List task_info :=
  if m.owner_task = none then
    ({ m with
       owner_task := some curr,
       lock_count := if m.recursive then m.lock_count + 1 else m.lock_count },
     ts)
  else if m.recursive ∧ m.owner_task = some curr then
    ({ m with lock_count := m.lock_count + 1 }, ts)
  else
    (m, ts ++ [{ tid := curr, state := .sleeping, wobj := some m.id }])

/-- kmutex_trylock: never sleeps; takes a free mutex, or increments the
count when recursive and already owned by the current task. The sleeping
list is returned untouched (the C code never references it). -/
def kmutex_trylock (curr : Nat) (m : kmutex) (ts : List task_info) :
    kmutex × List task_info × Bool :=
  if m.owner_task = none then
    ({ m with
       owner_task := some curr,
       lock_count := if m.recursive then m.lock_count + 1 else m.lock_count },
     ts, true)
  else if m.recursive ∧ m.owner_task = some curr then
    ({ m with lock_count := m.lock_count + 1 }, ts, true)
  else
    (m, ts, false)

/-- The `list_for_each` scan in kmutex_unlock: find the first sleeping task
whose wait object targets mutex `mid`, make it runnable and clear its wait
object; return the updated list and the picked task's id. -/
def kmutex_unlock_scan (mid : Nat) : List task_info → List task_info × Option Nat
  | [] => ([], none)
  | t :: rest =>
    if t.wobj = some mid then
      ({ t with state := .runnable, wobj := none } :: rest, some t.tid)
    else
      let r := kmutex_unlock_scan mid rest
      (t :: r.1, r.2)

/-- kmutex_unlock: for a recursive mutex decrement the counter and return
if still positive; otherwise clear the owner and hand the mutex to the
first waiter found in the sleeping list (recursive ⇒ its count becomes 1). -/
def kmutex_unlock (m : kmutex) (ts : List task_info) :
    kmutex × List task_info :=
  let m1 := if m.recursive then { m with lock_count := m.lock_count - 1 } else m
  if m.recursive ∧ m1.lock_count > 0 then
    (m1, ts)
  else
    let m2 := { m1 with owner_task := none }
    match kmutex_unlock_scan m.id ts with
    | (ts', some picked) =>
      ({ m2 with
         owner_task := some picked,
         lock_count := if m.recursive then m2.lock_count + 1 else m2.lock_count },
       ts')
    | (ts', none) => (m2, ts')

/-- Iterate kmutex_lock n times by the same task. -/
def kmutex_lockN (curr : Nat) : Nat → kmutex × List task_info → kmutex × List task_info
  | 0, s => s
  | n + 1, s => kmutex_lockN curr n (kmutex_lock curr s.1 s.2)

/-- Iterate kmutex_unlock n times. -/
def kmutex_unlockN : Nat → kmutex × List task_info → kmutex × List task_info
  | 0, s => s
  | n + 1, s => kmutex_unlockN n (kmutex_unlock s.1 s.2)

/-! ## IRQ dispatch and the 8259 PIC (src/kernel/arch/i386/irq.c) -/

/-- The machine-visible state touched by irq.c: the IRQ handler table,
mask bits per line, the PIC in-service register as sampled by
`pic_get_isr()`, the spurious/unhandled counters, a count of EOI bytes
written to each PIC command port, the preemption and nested-interrupt
counters, and a log of which handlers were invoked. `handlers irq = some k`
models `irq_handlers[irq] != NULL` (with `k` an opaque handler identity)
and `handler_ret` the int a handler returns when invoked. -/
structure irq_state where
  handlers : Nat → Option Nat
  masked : Nat → Bool
  isr : Nat
  handler_ret : Nat → Int
  spur_irq_count : Nat
  unhandled_irq_count : Nat → Nat
  master_eoi : Nat
  slave_eoi : Nat
  disable_preemption_count : Nat
  nested : List Nat
  invoked : List Nat
  saved_task_state : Bool
  scheduled : Bool

/-- irq_install_handler: record the handler and clear the line's mask. -/
def irq_install_handler (irq h : Nat) (s : irq_state) : irq_state :=
  { s with
    handlers := fun i => if i = irq then some h else s.handlers i,
    masked := fun i => if i = irq then false else s.masked i }

/-- irq_uninstall_handler: clear the handler slot. The mask is untouched. -/
def irq_uninstall_handler (irq : Nat) (s : irq_state) : irq_state :=
  { s with handlers := fun i => if i = irq then none else s.handlers i }

/-- irq_set_mask: set the mask bit of a line. -/
def irq_set_mask (irq : Nat) (s : irq_state) : irq_state :=
  { s with masked := fun i => if i = irq then true else s.masked i }

/-- irq_clear_mask: clear the mask bit of a line. -/
def irq_clear_mask (irq : Nat) (s : irq_state) : irq_state :=
  { s with masked := fun i => if i = irq then false else s.masked i }

/-- pic_send_eoi: one EOI byte to the slave command port when `irq >= 8`,
then one EOI byte to the master command port, always. -/
def pic_send_eoi (irq : Nat) (s : irq_state) : irq_state :=
  let s1 := if irq ≥ 8 then { s with slave_eoi := s.slave_eoi + 1 } else s
  { s1 with master_eoi := s1.master_eoi + 1 }

/-- An install / uninstall call, for reasoning about call sequences. -/
inductive irq_op where
  | install (irq h : Nat)
  | uninstall (irq : Nat)
deriving DecidableEq, Repr

/-- Apply one install / uninstall call. -/
def irq_op_apply (op : irq_op) (s : irq_state) : irq_state :=
  match op with
  | .install irq h => irq_install_handler irq h s
  | .uninstall irq => irq_uninstall_handler irq s

/-- Run a sequence of install / uninstall calls. -/
def irq_run : List irq_op → irq_state → irq_state
  | [], s => s
  | op :: rest, s => irq_run rest (irq_op_apply op s)

/-- The state after setup_irq_handling: every line masked, no handler
registered, all counters zero. -/
def irq_state_initial : irq_state :=
  { handlers := fun _ => none
    masked := fun _ => true
    isr := 0
    handler_ret := fun _ => 0
    spur_irq_count := 0
    unhandled_irq_count := fun _ => 0
    master_eoi := 0
    slave_eoi := 0
    disable_preemption_count := 0
    nested := []
    invoked := []
    saved_task_state := false
    scheduled := false }

/-- handle_irq_set_mask: when nested-interrupt tracking is on, the timer
line (irq 0) is not masked; every other line is. -/
def handle_irq_set_mask (track_nested : Bool) (irq : Nat) (s : irq_state) : irq_state :=
  if track_nested then
    if irq ≠ 0 then irq_set_mask irq s else s
  else
    irq_set_mask irq s

/-- handle_irq_clear_mask: mirror of handle_irq_set_mask. -/
def handle_irq_clear_mask (track_nested : Bool) (irq : Nat) (s : irq_state) : irq_state :=
  if track_nested then
    if irq ≠ 0 then irq_clear_mask irq s else s
  else
    irq_clear_mask irq s

/-- handle_irq: spurious-IRQ check on lines 7 and 15 (EOI to the master
only for line 15), then mask, disable preemption, push the nested vector,
EOI, run the registered handler (or bump the unhandled counter), pop,
re-enable preemption, unmask, and finally run the scheduler if the handler
asked for it and preemption is not otherwise disabled. `int_num` is the
CPU vector (`irq = int_num - 32`); `track_nested` is the build-time
KERNEL_TRACK_NESTED_INTERRUPTS flag. -/
def handle_irq (track_nested : Bool) (int_num : Nat) (s : irq_state) : irq_state :=
  let irq := int_num - 32
  if (irq = 7 ∨ irq = 15) ∧ s.isr &&& (1 <<< irq) = 0 then
    let s1 := if irq = 15 then pic_send_eoi 7 s else s
    { s1 with spur_irq_count := s1.spur_irq_count + 1 }
  else
    let s1 := handle_irq_set_mask track_nested irq s
    let s2 := { s1 with
                disable_preemption_count := s1.disable_preemption_count + 1,
                nested := int_num :: s1.nested }
    let s3 := pic_send_eoi irq s2
    let step :=
      match s3.handlers irq with
      | some _ => ({ s3 with invoked := s3.invoked ++ [irq] }, s3.handler_ret irq)
      | none =>
        ({ s3 with
           unhandled_irq_count := fun i =>
             if i = irq then s3.unhandled_irq_count irq + 1
             else s3.unhandled_irq_count i }, (0 : Int))
    let s4 := step.1
    let handler_ret := step.2
    let s5 := { s4 with
                nested := s4.nested.tail,
                disable_preemption_count := s4.disable_preemption_count - 1 }
    let s6 := handle_irq_clear_mask track_nested irq s5
    if handler_ret = 0 then s6
    else
      let s7 := { s6 with disable_preemption_count := s6.disable_preemption_count + 1 }
      if s7.disable_preemption_count > 1 then
        { s7 with disable_preemption_count := s7.disable_preemption_count - 1 }
      else
        let s8 := { s7 with saved_task_state := true, scheduled := true }
        { s8 with disable_preemption_count := s8.disable_preemption_count - 1 }

/-! ## VFS stat path (src/unnamed/part_000) -/

/-- Error numbers used by the embedded code (returned negated, as in C). -/
def EINVAL : Int := 22

def EFAULT : Int := 14

def ENOENT : Int := 2

/-- vfs_fstat64: fs_shlock, driver fstat, fs_shunlock; the driver's return
code is returned unchanged. The driver fstat is abstracted by its return
code `fstat_rc` (the locks are no-ops on a read-only FS). -/
def vfs_fstat64 (fstat_rc : Int) : Int :=
  fstat_rc

/-- vfs_stat64, abstracted over the return codes of the three steps it
performs: `open_rc` (vfs_open), `fstat_rc` (vfs_fstat64), `close_rc`
(vfs_close). The C code returns `open_rc` when negative; otherwise it
calls vfs_fstat64 into `rc`, calls vfs_close, and returns the literal 0,
discarding both `rc` and the close result. -/
def vfs_stat64 (open_rc fstat_rc close_rc : Int) : Int :=
  if open_rc < 0 then open_rc
  else
    let _rc := vfs_fstat64 fstat_rc
    let _ := close_rc
    0

/-! ## VFS getdents64 (src/unnamed/part_000) -/

/-- The vfs entry types that can appear in a vfs_dent64. -/
inductive vfs_entry_type where
  | file
  | dir
  | symlink
  | char_dev
  | block_dev
  | pipe
deriving DecidableEq, Repr

/-- vfs_type_to_linux_dirent_type: the DT_* byte for each vfs type
(DT_REG=8, DT_DIR=4, DT_LNK=10, DT_CHR=2, DT_BLK=6, DT_FIFO=1). -/
def vfs_type_to_linux_dirent_type : vfs_entry_type → Nat
  | .file => 8
  | .dir => 4
  | .symlink => 10
  | .char_dev => 2
  | .block_dev => 6
  | .pipe => 1

/-- A directory entry as reported by a driver to the VFS callback. -/
structure vfs_dent64 where
  ino : Nat
  typ : vfs_entry_type
  name : String
deriving DecidableEq, Repr

/-- sizeof(struct linux_dirent64) for the wire layout
{u64 d_ino, s64 d_off, u16 d_reclen, u8 d_type}: 8 + 8 + 2 + 1 bytes. -/
def linux_dirent64_hdr_size : Nat := 19

/-- The record size a vfs_dent64 occupies in the user buffer:
header + name + NUL terminator. -/
def dirent_size (d : vfs_dent64) : Nat :=
  linux_dirent64_hdr_size + d.name.length + 1

/-- A write into the user buffer: (byte offset, header record or name). -/
inductive user_write where
  | hdr (offset : Nat) (d_ino d_off d_reclen d_type : Nat)
  | name (offset : Nat) (s : String)
deriving DecidableEq, Repr

/-- The vfs_getdents_ctx, including the handle's `pos` (mutated through
`ctx->h->pos`) and the log of successful copy_to_user writes. -/
structure vfs_getdents_ctx where
  pos : Nat
  buf_size : Nat
  offset : Nat
  curr_index : Nat
  writes : List user_write
deriving DecidableEq, Repr

/-- vfs_getdents_cb: skip the first `pos` entries; fail with -EINVAL when
the very first pending record does not fit; stop returning the byte count
when a later record does not fit; otherwise copy the header and the name
to the user buffer (each copy may fault, modelled by `copy_fails offset
len`), then advance offset, curr_index and the handle's pos. Returns the
updated ctx and the callback's int result (0 = continue). -/
def vfs_getdents_cb (copy_fails : Nat → Nat → Bool) (ctx : vfs_getdents_ctx)
    (vde : vfs_dent64) : vfs_getdents_ctx × Int :=
  if ctx.curr_index < ctx.pos then
    ({ ctx with curr_index := ctx.curr_index + 1 }, 0)
  else
    let fl := vde.name.length
    let entry_size := linux_dirent64_hdr_size + fl + 1
    if ctx.offset + entry_size > ctx.buf_size then
      if ctx.offset = 0 then (ctx, -EINVAL)
      else (ctx, (ctx.offset : Int))
    else
      if copy_fails ctx.offset linux_dirent64_hdr_size then
        (ctx, -EFAULT)
      else
        let ctx1 := { ctx with
          writes := ctx.writes ++
            [user_write.hdr ctx.offset vde.ino (ctx.offset + entry_size)
              entry_size (vfs_type_to_linux_dirent_type vde.typ)] }
        if copy_fails (ctx.offset + linux_dirent64_hdr_size) (fl + 1) then
          (ctx1, -EFAULT)
        else
          ({ ctx1 with
             writes := ctx1.writes ++
               [user_write.name (ctx.offset + linux_dirent64_hdr_size) vde.name],
             offset := ctx.offset + entry_size,
             curr_index := ctx.curr_index + 1,
             pos := ctx.pos + 1 }, 0)

/-- Modelled from the spec: the driver getdents (e.g. fat_getdents via
fat_walk_directory, which lives outside this repository snapshot) iterates
over all directory entries in order, passing each to the VFS callback, and
stops at the first non-zero callback result, returning it; 0 when the walk
completes. -/
def vfs_getdents_walk (copy_fails : Nat → Nat → Bool) :
    List vfs_dent64 → vfs_getdents_ctx → vfs_getdents_ctx × Int
  | [], ctx => (ctx, 0)
  | d :: ds, ctx =>
    let r := vfs_getdents_cb copy_fails ctx d
    if r.2 = 0 then vfs_getdents_walk copy_fails ds r.1 else r

/-- vfs_getdents64 over a directory whose entries are `dents`: build the
ctx with offset 0 and the handle's current `pos`, run the driver walk and,
when it returns 0, return the byte count. The result is the final handle
pos, the log of user-buffer writes, and the return value. -/
def vfs_getdents64 (copy_fails : Nat → Nat → Bool) (dents : List vfs_dent64)
    (h_pos : Nat) (buf_size : Nat) : Nat × List user_write × Int :=
  let ctx : vfs_getdents_ctx :=
    { pos := h_pos, buf_size := buf_size, offset := 0, curr_index := 0, writes := [] }
  let r := vfs_getdents_walk copy_fails dents ctx
  let rc := if r.2 = 0 then (r.1.offset : Int) else r.2
  (r.1.pos, r.1.writes, rc)

/-- No-fault copy environment: copy_to_user always succeeds. -/
def copy_ok : Nat → Nat → Bool := fun _ _ => false

/-- Iterate vfs_getdents64 (no faults) `n` times with the same buffer
size, threading the handle's pos; collect the write logs of all calls. -/
def vfs_getdents64_rounds (dents : List vfs_dent64) (buf_size : Nat) :
    Nat → Nat → List (List user_write)
  | 0, _ => []
  | n + 1, p =>
    let r := vfs_getdents64 copy_ok dents p buf_size
    r.2.1 :: vfs_getdents64_rounds dents buf_size n r.1

/-- Extract the (d_ino, d_type, d_name) records from a user-buffer write
log; every fully emitted entry contributes its header write immediately
followed by its name write. -/
def writes_records : List user_write → List (Nat × Nat × String)
  | user_write.hdr _ ino _ _ dt :: user_write.name _ s :: rest =>
    (ino, dt, s) :: writes_records rest
  | _ :: rest => writes_records rest
  | [] => []

/-- The user-visible record of one directory entry. -/
def vfs_dent_record (d : vfs_dent64) : Nat × Nat × String :=
  (d.ino, vfs_type_to_linux_dirent_type d.typ, d.name)

/-- Total buffer bytes a list of directory entries occupies. -/
def dirents_bytes (ds : List vfs_dent64) : Nat :=
  (ds.map dirent_size).sum

/-- How many leading entries fit in a buffer of `buf` bytes when records
start at byte `off` (the greedy emission of vfs_getdents_cb). -/
def dirents_fit_count (buf : Nat) : Nat → List vfs_dent64 → Nat
  | _, [] => 0
  | off, d :: ds =>
    if off + dirent_size d > buf then 0
    else 1 + dirents_fit_count buf (off + dirent_size d) ds

/-- The user-buffer writes produced by emitting `ds` starting at `off`. -/
def dirents_writes (off : Nat) : List vfs_dent64 → List user_write
  | [] => []
  | d :: ds =>
    user_write.hdr off d.ino (off + dirent_size d) (dirent_size d)
        (vfs_type_to_linux_dirent_type d.typ) ::
      user_write.name (off + linux_dirent64_hdr_size) d.name ::
        dirents_writes (off + dirent_size d) ds

/-- Both copy_to_user calls succeed for each entry of the list, with
records laid out from byte `off`. -/
def dirents_copies_ok (cf : Nat → Nat → Bool) : Nat → List vfs_dent64 → Bool
  | _, [] => true
  | off, d :: ds =>
    !cf off linux_dirent64_hdr_size &&
      !cf (off + linux_dirent64_hdr_size) (d.name.length + 1) &&
        dirents_copies_ok cf (off + dirent_size d) ds

/-! ## FAT driver (src/kernel/fs/fat32.c) -/

/-- Modelled from the spec: the FAT device data reachable from
`fat_fs_device_data`. `fat_next c` combines `fat_read_fat_entry` with
`fat_is_end_of_clusterchain` (none = end of chain; bad clusters do not
occur in well-formed images), and `byte_at c i` is byte `i` of the
cluster data returned by `fat_get_pointer_to_cluster_data` — all three
helpers live outside this repository snapshot. -/
structure fat_fs_device_data where
  cluster_size : Nat
  fat_next : Nat → Option Nat
  byte_at : Nat → Nat → Nat

/-- The fields of a FAT directory entry used by the embedded code.
`dirents_count` models the `fat_count_dirents` result for a directory
(the walk helper lives outside this snapshot). -/
structure fat_entry where
  DIR_FileSize : Nat
  first_cluster : Nat
  directory : Bool
  dirents_count : Nat
deriving DecidableEq, Repr

/-- A FAT file handle: byte cursor and the cluster containing it. -/
structure fat_handle where
  pos : Nat
  curr_cluster : Nat
deriving DecidableEq, Repr

/-- The `(u32) -1` sentinel stored in curr_cluster when seeking past
the end of the file. -/
def fat_invalid_cluster : Nat := 2 ^ 32 - 1

def SEEK_SET : Nat := 0

def SEEK_CUR : Nat := 1

def SEEK_END : Nat := 2

/-- fat_rewind: `pos = 0; curr_cluster = fat_get_first_cluster(entry)`. -/
def fat_rewind (e : fat_entry) (_h : fat_handle) : fat_handle :=
  { pos := 0, curr_cluster := e.first_cluster }

/-- The do/while loop of fat_read. Each pass copies
`min(cluster_rem, buf_rem, file_rem)` bytes out of the current cluster,
stops when it copied less than `cluster_rem`, otherwise follows the FAT
chain (stopping at end-of-chain). The fuel only bounds the recursion; it
is chosen large enough to never run out. Returns the final handle, the
bytes written count, and the bytes copied out so far. -/
def fat_read_loop (d : fat_fs_device_data) (fsize bufsize : Nat) :
    Nat → fat_handle → Nat → List Nat → fat_handle × Nat × List Nat
  | 0, h, written, out => (h, written, out)
  | fuel + 1, h, written, out =>
    let cluster_off := h.pos % d.cluster_size
    let cluster_rem := d.cluster_size - cluster_off
    let file_rem := fsize - h.pos
    let buf_rem := bufsize - written
    let to_read := min cluster_rem (min buf_rem file_rem)
    let out' := out ++ (List.range to_read).map (fun i => d.byte_at h.curr_cluster (cluster_off + i))
    let written' := written + to_read
    let h' := { h with pos := h.pos + to_read }
    if to_read < cluster_rem then (h', written', out')
    else
      match d.fat_next h.curr_cluster with
      | none => (h', written', out')
      | some c => fat_read_loop d fsize bufsize fuel { h' with curr_cluster := c } written' out'

/-- fat_read: return 0 when the cursor is at or past the end; otherwise
run the cluster-copy loop. -/
def fat_read (d : fat_fs_device_data) (e : fat_entry) (h : fat_handle)
    (bufsize : Nat) : fat_handle × Nat × List Nat :=
  let fsize := e.DIR_FileSize
  if h.pos ≥ fsize then (h, 0, [])
  else fat_read_loop d fsize bufsize (bufsize + 1) h 0 []

/-- The do/while loop of fat_seek_forward, mirroring fat_read_loop with a
distance budget instead of a buffer. -/
def fat_seek_forward_loop (d : fat_fs_device_data) (fsize dist : Nat) :
    Nat → fat_handle → Nat → fat_handle
  | 0, h, _ => h
  | fuel + 1, h, moved =>
    let cluster_off := h.pos % d.cluster_size
    let cluster_rem := d.cluster_size - cluster_off
    let file_rem := fsize - h.pos
    let dist_rem := dist - moved
    let to_move := min cluster_rem (min dist_rem file_rem)
    let h' := { h with pos := h.pos + to_move }
    if to_move < cluster_rem then h'
    else
      match d.fat_next h.curr_cluster with
      | none => h'
      | some c => fat_seek_forward_loop d fsize dist fuel { h' with curr_cluster := c } (moved + to_move)

/-- fat_seek_forward: nothing to do for dist 0; seeking past the end of
the file is allowed and marks curr_cluster invalid; otherwise walk the
chain forward. Returns the updated handle and the returned offset. -/
def fat_seek_forward (d : fat_fs_device_data) (fsize : Nat) (h : fat_handle)
    (dist : Nat) : fat_handle × Int :=
  if dist = 0 then (h, (h.pos : Int))
  else if h.pos + dist > fsize then
    let h' : fat_handle := { pos := h.pos + dist, curr_cluster := fat_invalid_cluster }
    (h', (h'.pos : Int))
  else
    let h' := fat_seek_forward_loop d fsize dist (dist + 1) h 0
    (h', (h'.pos : Int))

/-- fat_seek_dir: only offsets in [0, entry_count] are accepted. -/
def fat_seek_dir (e : fat_entry) (h : fat_handle) (off : Int) : fat_handle × Int :=
  if off < 0 then (h, -EINVAL)
  else if off > (e.dirents_count : Int) then (h, -EINVAL)
  else ({ h with pos := off.toNat }, off)

/-- fat_seek: directories accept only SEEK_SET; for files, translate
`whence` exactly as the C switch does (note: SEEK_END with off >= 0
falls through without rewinding or translating) and walk forward. -/
def fat_seek (d : fat_fs_device_data) (e : fat_entry) (h : fat_handle)
    (off : Int) (whence : Nat) : fat_handle × Int :=
  if e.directory then
    if whence ≠ SEEK_SET then (h, -EINVAL)
    else fat_seek_dir e h off
  else
    let curr_pos := h.pos
    if whence = SEEK_SET then
      if off < 0 then (h, -EINVAL)
      else fat_seek_forward d e.DIR_FileSize (fat_rewind e h) off.toNat
    else if whence = SEEK_END then
      if off ≥ 0 then fat_seek_forward d e.DIR_FileSize h off.toNat
      else
        let off2 := (e.DIR_FileSize : Int) + off
        if off2 < 0 then (h, -EINVAL)
        else fat_seek_forward d e.DIR_FileSize (fat_rewind e h) off2.toNat
    else if whence = SEEK_CUR then
      if off < 0 then
        let off2 := (curr_pos : Int) + off
        if off2 < 0 then (h, -EINVAL)
        else fat_seek_forward d e.DIR_FileSize (fat_rewind e h) off2.toNat
      else fat_seek_forward d e.DIR_FileSize h off.toNat
    else (h, -EINVAL)

/-- The cluster chain of a file is a list of cluster numbers linked by
`fat_next`, the last one marked end-of-chain. -/
def fat_chain_links (d : fat_fs_device_data) : List Nat → Bool
  | [] => true
  | [c] => d.fat_next c = none
  | c1 :: c2 :: rest => d.fat_next c1 = some c2 && fat_chain_links d (c2 :: rest)

/-- Byte `i` of a file stored on cluster chain `chain`. -/
def fat_chain_byte (d : fat_fs_device_data) (chain : List Nat) (i : Nat) : Nat :=
  d.byte_at (chain.getD (i / d.cluster_size) 0) (i % d.cluster_size)

/-- The whole content of a file of `fsize` bytes on chain `chain`. -/
def fat_file_content (d : fat_fs_device_data) (chain : List Nat) (fsize : Nat) : List Nat :=
  (List.range fsize).map (fat_chain_byte d chain)

/-- Well-formed mounted image, for entry `e` with cluster chain `chain`:
positive cluster size, a non-empty chain starting at the entry's first
cluster, linked by the FAT, and long enough to hold the file. -/
def fat_wf (d : fat_fs_device_data) (e : fat_entry) (chain : List Nat) : Prop :=
  1 ≤ d.cluster_size ∧ chain ≠ [] ∧ chain.getD 0 0 = e.first_cluster ∧
    e.DIR_FileSize ≤ chain.length * d.cluster_size ∧ fat_chain_links d chain = true

/-- Handle invariant maintained by open/read/seek: curr_cluster is the
cluster containing `pos` while inside the file, and the invalid sentinel
past the end. -/
def fat_handle_inv (d : fat_fs_device_data) (e : fat_entry) (chain : List Nat)
    (h : fat_handle) : Prop :=
  (h.pos < e.DIR_FileSize → h.curr_cluster = chain.getD (h.pos / d.cluster_size) 0) ∧
    (h.pos > e.DIR_FileSize → h.curr_cluster = fat_invalid_cluster)

/-- The handle state fat_open produces: cursor 0, first cluster. -/
def fat_open_handle (e : fat_entry) : fat_handle :=
  { pos := 0, curr_cluster := e.first_cluster }

/-- Sequentially fat_read with the given chunk sizes, concatenating the
bytes obtained. -/
def fat_read_chunks (d : fat_fs_device_data) (e : fat_entry) :
    fat_handle → List Nat → fat_handle × List Nat
  | h, [] => (h, [])
  | h, n :: ns =>
    let r := fat_read d e h n
    let rest := fat_read_chunks d e r.1 ns
    (rest.1, r.2.2 ++ rest.2)

/-! ## Sample instances used by witnesses and counterexamples -/

/-- A tiny mounted image: 4-byte clusters, one file on cluster chain
[5, 9], byte i of cluster c reading as 10·c + i. -/
def fat_dev_sample : fat_fs_device_data :=
  { cluster_size := 4
    fat_next := fun c => if c = 5 then some 9 else none
    byte_at := fun c i => c * 10 + i }

/-- A 6-byte regular file starting at cluster 5. -/
def fat_entry_sample : fat_entry :=
  { DIR_FileSize := 6, first_cluster := 5, directory := false, dirents_count := 0 }

/-- The directory listing of spec scenario S6: entries a, bb, ccc. -/
def dents_sample : List vfs_dent64 :=
  [{ ino := 1, typ := .file, name := "a" },
   { ino := 2, typ := .dir, name := "bb" },
   { ino := 3, typ := .file, name := "ccc" }]

/-- A copy_to_user environment that faults exactly on the destination
offset 40 — the name copy of the second record of `dents_sample`. -/
def copy_fault_sample : Nat → Nat → Bool := fun off _ => off = 40

/-! # Theorems -/

/-! ## C3: the vfs_stat64 error path -/

/-- C3 (code_bug evidence): the claim says vfs_stat64 propagates a
non-zero fstat error unmodified and returns 0 only when fstat succeeds.
On the code, with a successful open and the fstat step failing with
-EFAULT, vfs_stat64 nevertheless returns 0: the `rc` assigned from
vfs_fstat64 is dead and `return 0` is unconditional. -/
theorem vfs_stat64_drops_fstat_error :
    vfs_stat64 0 (-EFAULT) 0 = 0 ∧ vfs_fstat64 (-EFAULT) = -EFAULT ∧
      (-EFAULT : Int) ≠ 0 := by
  refine ⟨rfl, rfl, by decide⟩

/-! ## C9: kmutex_trylock -/

/-- C9: kmutex_trylock never sleeps (the task list is untouched) and
succeeds iff the mutex was free (current becomes owner; count 1 when
recursive) or it is recursive and already owned by the current task
(count + 1); in every other case it returns false and leaves the mutex
unchanged. -/
theorem kmutex_trylock_spec (curr : Nat) (m : kmutex) (ts : List task_info)
    (hfree : m.owner_task = none → m.lock_count = 0) :
    ((kmutex_trylock curr m ts).2.2 = true ↔
        (m.owner_task = none ∨ (m.recursive = true ∧ m.owner_task = some curr))) ∧
    (kmutex_trylock curr m ts).2.1 = ts ∧
    (m.owner_task = none →
        (kmutex_trylock curr m ts).1.owner_task = some curr ∧
        (m.recursive = true → (kmutex_trylock curr m ts).1.lock_count = 1) ∧
        (m.recursive = false → (kmutex_trylock curr m ts).1.lock_count = m.lock_count)) ∧
    (m.recursive = true → m.owner_task = some curr →
        (kmutex_trylock curr m ts).1.owner_task = some curr ∧
        (kmutex_trylock curr m ts).1.lock_count = m.lock_count + 1) ∧
    ((kmutex_trylock curr m ts).2.2 = false → (kmutex_trylock curr m ts).1 = m) := by
  obtain ⟨mid, mrec, mown, mlc⟩ := m
  rcases mown with _ | owner
  · cases mrec <;> simp_all [kmutex_trylock]
  · by_cases hoc : owner = curr <;> cases mrec <;> simp_all [kmutex_trylock]

/-- C9 witness: trylock on a fresh non-recursive mutex leaves the task
list untouched. -/
theorem kmutex_trylock_spec_witness :
    (kmutex_trylock 1 (kmutex_init 5 false) []).2.1 = [] :=
  (kmutex_trylock_spec 1 (kmutex_init 5 false) [] (fun _ => rfl)).2.1

/-! ## C2: spurious IRQ handling -/

/-- C2: on entry to handle_irq for irq 7 or 15 (vectors 39 / 47) with the
PIC ISR bit for that line clear, the spurious counter is incremented, no
handler is invoked, no unhandled counter changes, no line is masked, no
EOI at all is sent for irq 7, and for irq 15 exactly one EOI byte goes to
the master command port and none to the slave. -/
theorem handle_irq_spurious_spec (tn : Bool) (s : irq_state) (v : Nat)
    (hv : v = 39 ∨ v = 47)
    (hisr : s.isr &&& (1 <<< (v - 32)) = 0) :
    (handle_irq tn v s).spur_irq_count = s.spur_irq_count + 1 ∧
    (handle_irq tn v s).invoked = s.invoked ∧
    (handle_irq tn v s).masked = s.masked ∧
    (handle_irq tn v s).unhandled_irq_count = s.unhandled_irq_count ∧
    (v = 39 → (handle_irq tn v s).master_eoi = s.master_eoi ∧
        (handle_irq tn v s).slave_eoi = s.slave_eoi) ∧
    (v = 47 → (handle_irq tn v s).master_eoi = s.master_eoi + 1 ∧
        (handle_irq tn v s).slave_eoi = s.slave_eoi) := by
  rcases hv with hv | hv <;> subst hv
  · have h : s.isr &&& 128 = 0 := by simpa using hisr
    simp [handle_irq, pic_send_eoi, h]
  · have h : s.isr &&& 32768 = 0 := by simpa using hisr
    simp [handle_irq, pic_send_eoi, h]

/-- C2 witness: a spurious vector 47 from the all-zero ISR state bumps
the counter to 1. -/
theorem handle_irq_spurious_spec_witness :
    (handle_irq true 47 irq_state_initial).spur_irq_count =
      irq_state_initial.spur_irq_count + 1 :=
  (handle_irq_spurious_spec true irq_state_initial 47 (Or.inr rfl) (by decide)).1

/-! ## C4: unmasked lines and registered handlers -/

/-- C4 counterexample: the claim says irq_uninstall_handler never leaves
a line both unmasked and without a handler. Installing a handler on line
3 (which unmasks it) and then uninstalling it leaves line 3 unmasked with
a null handler, because irq_uninstall_handler does not re-mask the line. -/
theorem irq_uninstall_leaves_unmasked_line :
    (irq_run [irq_op.install 3 0, irq_op.uninstall 3] irq_state_initial).masked 3 = false ∧
    (irq_run [irq_op.install 3 0, irq_op.uninstall 3] irq_state_initial).handlers 3 = none :=
  ⟨rfl, rfl⟩

/-- Any unmasked line was unmasked by some install in the executed call
sequence, or was already unmasked at the start: only irq_install_handler
clears a mask bit, and irq_uninstall_handler leaves masks unchanged. -/
theorem irq_run_unmasked_source (ops : List irq_op) (s : irq_state) (i : Nat)
    (h : (irq_run ops s).masked i = false) :
    (∃ hd, irq_op.install i hd ∈ ops) ∨ s.masked i = false := by
  induction ops generalizing s with
  | nil => exact Or.inr h
  | cons op rest ih =>
    rcases ih (irq_op_apply op s) h with hin | hbase
    · rcases hin with ⟨hd, hmem⟩
      exact Or.inl ⟨hd, List.mem_cons_of_mem _ hmem⟩
    · cases op with
      | install j hd =>
        by_cases hij : i = j
        · subst hij
          exact Or.inl ⟨hd, List.mem_cons_self _ _⟩
        · simp only [irq_op_apply, irq_install_handler] at hbase
          rw [if_neg hij] at hbase
          exact Or.inr hbase
      | uninstall j =>
        exact Or.inr hbase

/-- C4 (amended): after any sequence of install/uninstall calls starting
from the fully-masked initial state, every unmasked IRQ line had a handler
installed on it by some call of the sequence; irq_uninstall_handler never
changes any mask bit, so (as the counterexample shows) a line can still be
left unmasked with no registered handler. -/
theorem irq_unmasked_implies_installed :
    (∀ (ops : List irq_op) (i : Nat),
        (irq_run ops irq_state_initial).masked i = false →
        ∃ hd, irq_op.install i hd ∈ ops) ∧
    (∀ (irq : Nat) (s : irq_state),
        (irq_uninstall_handler irq s).masked = s.masked) := by
  constructor
  · intro ops i h
    rcases irq_run_unmasked_source ops irq_state_initial i h with hin | hbase
    · exact hin
    · exact absurd hbase (by simp [irq_state_initial])
  · intro irq s
    rfl

/-- C4 amended-claim witness: in the counterexample sequence, line 3 is
unmasked and an install on line 3 indeed occurs in the sequence. -/
theorem irq_unmasked_implies_installed_witness :
    ∃ hd, irq_op.install 3 hd ∈ [irq_op.install 3 0, irq_op.uninstall 3] :=
  irq_unmasked_implies_installed.1 [irq_op.install 3 0, irq_op.uninstall 3] 3 rfl

/-! ## Mutex unlock / recursive-count lemmas -/

/-- If no sleeping task waits on mutex `mid`, the unlock scan changes
nothing and picks nobody. -/
theorem kmutex_unlock_scan_no_waiter (mid : Nat) (ts : List task_info)
    (hw : ∀ t ∈ ts, t.wobj ≠ some mid) :
    kmutex_unlock_scan mid ts = (ts, none) := by
  induction ts with
  | nil => rfl
  | cons t rest ih =>
    have ht : t.wobj ≠ some mid := hw t (List.mem_cons_self _ _)
    simp only [kmutex_unlock_scan, if_neg ht]
    rw [ih (fun x hx => hw x (List.mem_cons_of_mem _ hx))]

/-- The unlock scan stops at the first task waiting on `mid`: it becomes
runnable with a cleared wait object, everything else is untouched. -/
theorem kmutex_unlock_scan_first (mid : Nat) (pre post : List task_info)
    (w : task_info) (hpre : ∀ t ∈ pre, t.wobj ≠ some mid)
    (hw : w.wobj = some mid) :
    kmutex_unlock_scan mid (pre ++ w :: post) =
      (pre ++ { w with state := .runnable, wobj := none } :: post, some w.tid) := by
  induction pre with
  | nil => simp [kmutex_unlock_scan, hw]
  | cons t rest ih =>
    have ht : t.wobj ≠ some mid := hpre t (List.mem_cons_self _ _)
    simp only [List.cons_append, kmutex_unlock_scan, if_neg ht, List.append_eq]
    rw [ih (fun x hx => hpre x (List.mem_cons_of_mem _ hx))]

/-- Locking a recursive mutex already owned by the current task n times
adds n to the count and never touches the sleeping list. -/
theorem kmutex_lockN_owned (A mid : Nat) (ts : List task_info) (n c : Nat) :
    kmutex_lockN A n
      ({ id := mid, recursive := true, owner_task := some A, lock_count := c }, ts) =
    ({ id := mid, recursive := true, owner_task := some A, lock_count := c + n }, ts) := by
  induction n generalizing c with
  | zero => rfl
  | succ n ih =>
    show kmutex_lockN A n
        (kmutex_lock A
          { id := mid, recursive := true, owner_task := some A, lock_count := c } ts) = _
    rw [show kmutex_lock A
          { id := mid, recursive := true, owner_task := some A, lock_count := c } ts =
        ({ id := mid, recursive := true, owner_task := some A, lock_count := c + 1 }, ts) by
      simp [kmutex_lock]]
    rw [ih (c + 1), show c + 1 + n = c + (n + 1) from by omega]

/-- Unlocking a recursive mutex k < c times from count c just decrements
the count to c − k, keeping the owner. -/
theorem kmutex_unlockN_owned (A mid : Nat) (ts : List task_info) (k c : Nat)
    (hk : k < c) :
    kmutex_unlockN k
      ({ id := mid, recursive := true, owner_task := some A, lock_count := c }, ts) =
    ({ id := mid, recursive := true, owner_task := some A, lock_count := c - k }, ts) := by
  induction k generalizing c with
  | zero => rfl
  | succ k ih =>
    show kmutex_unlockN k
        (kmutex_unlock
          { id := mid, recursive := true, owner_task := some A, lock_count := c } ts) = _
    rw [show kmutex_unlock
          { id := mid, recursive := true, owner_task := some A, lock_count := c } ts =
        ({ id := mid, recursive := true, owner_task := some A, lock_count := c - 1 }, ts) by
      have hc : 0 < c - 1 := by omega
      simp [kmutex_unlock, hc]]
    rw [ih (c - 1) (by omega), show c - 1 - k = c - (k + 1) from by omega]

/-- Unlocking a recursive mutex exactly count-many times frees it, when
nobody sleeps on it. -/
theorem kmutex_unlockN_free (A mid : Nat) (ts : List task_info)
    (hw : ∀ t ∈ ts, t.wobj ≠ some mid) (c : Nat) :
    kmutex_unlockN (c + 1)
      ({ id := mid, recursive := true, owner_task := some A, lock_count := c + 1 }, ts) =
    ({ id := mid, recursive := true, owner_task := none, lock_count := 0 }, ts) := by
  induction c with
  | zero =>
    show kmutex_unlockN 0
        (kmutex_unlock
          { id := mid, recursive := true, owner_task := some A, lock_count := 1 } ts) = _
    simp [kmutex_unlockN, kmutex_unlock, kmutex_unlock_scan_no_waiter mid ts hw]
  | succ c ih =>
    show kmutex_unlockN (c + 1)
        (kmutex_unlock
          { id := mid, recursive := true, owner_task := some A, lock_count := c + 2 } ts) = _
    rw [show kmutex_unlock
          { id := mid, recursive := true, owner_task := some A, lock_count := c + 2 } ts =
        ({ id := mid, recursive := true, owner_task := some A, lock_count := c + 1 }, ts) by
      have hc : 0 < c + 2 - 1 := by omega
      simp [kmutex_unlock, hc, show c + 2 - 1 = c + 1 from by omega]]
    exact ih

/-! ## C8: recursive lock / unlock counting -/

/-- C8: on a freshly initialized recursive mutex, N ≥ 1 lock calls by
task A leave A as owner with lock_count = N; k < N unlocks leave A owner
with lock_count = N − k; the N-th unlock frees the mutex (owner null,
count 0, nobody woken when nobody waits on it); and the mutex is free
iff the counter is back to zero. -/
theorem kmutex_recursive_count_spec (A mid : Nat) (ts0 : List task_info) (N k : Nat)
    (hN : 1 ≤ N) (hk : k ≤ N)
    (hw : ∀ t ∈ ts0, t.wobj ≠ some mid) :
    (kmutex_lockN A N (kmutex_init mid true, ts0)).1.owner_task = some A ∧
    (kmutex_lockN A N (kmutex_init mid true, ts0)).1.lock_count = N ∧
    (kmutex_lockN A N (kmutex_init mid true, ts0)).2 = ts0 ∧
    (k < N →
      (kmutex_unlockN k (kmutex_lockN A N (kmutex_init mid true, ts0))).1.owner_task = some A ∧
      (kmutex_unlockN k (kmutex_lockN A N (kmutex_init mid true, ts0))).1.lock_count = N - k ∧
      (kmutex_unlockN k (kmutex_lockN A N (kmutex_init mid true, ts0))).2 = ts0) ∧
    (k = N →
      (kmutex_unlockN k (kmutex_lockN A N (kmutex_init mid true, ts0))).1.owner_task = none ∧
      (kmutex_unlockN k (kmutex_lockN A N (kmutex_init mid true, ts0))).1.lock_count = 0 ∧
      (kmutex_unlockN k (kmutex_lockN A N (kmutex_init mid true, ts0))).2 = ts0) ∧
    ((kmutex_unlockN k (kmutex_lockN A N (kmutex_init mid true, ts0))).1.owner_task = none ↔
      (kmutex_unlockN k (kmutex_lockN A N (kmutex_init mid true, ts0))).1.lock_count = 0) := by
  rcases N with _ | n
  · exact absurd hN (by omega)
  have hlock : kmutex_lockN A (n + 1) (kmutex_init mid true, ts0) =
      ({ id := mid, recursive := true, owner_task := some A, lock_count := n + 1 }, ts0) := by
    show kmutex_lockN A n (kmutex_lock A (kmutex_init mid true) ts0) = _
    rw [show kmutex_lock A (kmutex_init mid true) ts0 =
        ({ id := mid, recursive := true, owner_task := some A, lock_count := 1 }, ts0) by
      simp [kmutex_lock, kmutex_init]]
    rw [kmutex_lockN_owned A mid ts0 n 1]
    congr 2
    omega
  rw [hlock]
  refine ⟨rfl, rfl, rfl, ?_, ?_, ?_⟩
  · intro hlt
    rw [kmutex_unlockN_owned A mid ts0 k (n + 1) hlt]
    exact ⟨rfl, rfl, rfl⟩
  · intro heq
    subst heq
    rw [kmutex_unlockN_free A mid ts0 hw n]
    exact ⟨rfl, rfl, rfl⟩
  · by_cases hcase : k = n + 1
    · subst hcase
      rw [kmutex_unlockN_free A mid ts0 hw n]
      simp
    · have hlt : k < n + 1 := by omega
      rw [kmutex_unlockN_owned A mid ts0 k (n + 1) hlt]
      constructor
      · intro h
        exact Option.noConfusion h
      · intro h
        exact absurd (show n + 1 - k = 0 from h) (by omega)

/-- C8 witness: three locks and two unlocks on a fresh recursive mutex
leave lock_count = 1 with the calling task still owner. -/
theorem kmutex_recursive_count_spec_witness :
    (kmutex_lockN 1 3 (kmutex_init 5 true, [])).1.owner_task = some 1 :=
  (kmutex_recursive_count_spec 1 5 [] 3 2 (by decide) (by decide)
    (fun t ht => absurd ht (List.not_mem_nil t))).1

/-! ## FAT arithmetic and chain lemmas -/

/-- Moving i bytes inside the current cluster keeps the cluster index and
moves the intra-cluster offset linearly. -/
theorem fat_div_mod_step (cs p i : Nat) (hcs : 1 ≤ cs) (hi : p % cs + i < cs) :
    (p + i) / cs = p / cs ∧ (p + i) % cs = p % cs + i := by
  have hq := Nat.div_add_mod p cs
  have h1 : p + i = cs * (p / cs) + (p % cs + i) := by omega
  constructor
  · rw [h1, Nat.mul_add_div (by omega), Nat.div_eq_of_lt hi, Nat.add_zero]
  · rw [h1, Nat.mul_add_mod, Nat.mod_eq_of_lt hi]

/-- Crossing to the end of the current cluster lands exactly on the next
cluster boundary. -/
theorem fat_div_boundary (cs p : Nat) (hcs : 1 ≤ cs) :
    p + (cs - p % cs) = cs * (p / cs + 1) ∧
      (p + (cs - p % cs)) / cs = p / cs + 1 := by
  have hq := Nat.div_add_mod p cs
  have hlt : p % cs < cs := Nat.mod_lt _ (by omega)
  have hmul : cs * (p / cs + 1) = cs * (p / cs) + cs := by ring
  have h1 : p + (cs - p % cs) = cs * (p / cs + 1) := by omega
  refine ⟨h1, ?_⟩
  rw [h1, Nat.mul_div_cancel_left _ (by omega : 0 < cs)]

/-- The FAT links every chain element to its successor. -/
theorem fat_chain_links_next (d : fat_fs_device_data) :
    ∀ chain : List Nat, fat_chain_links d chain = true →
      ∀ i, i + 1 < chain.length →
        d.fat_next (chain.getD i 0) = some (chain.getD (i + 1) 0) := by
  intro chain
  induction chain with
  | nil =>
    intro _ i hi
    simp at hi
  | cons c tail ih =>
    intro hl i hi
    cases tail with
    | nil =>
      simp at hi
    | cons c2 rest =>
      have hl' := hl
      simp only [fat_chain_links, Bool.and_eq_true, decide_eq_true_eq] at hl'
      cases i with
      | zero => simpa using hl'.1
      | succ i =>
        have hlen : i + 1 < (c2 :: rest).length := by
          simpa using Nat.lt_of_succ_lt_succ hi
        simpa using ih hl'.2 i hlen

/-- The last chain element is marked end-of-chain. -/
theorem fat_chain_links_last (d : fat_fs_device_data) :
    ∀ chain : List Nat, fat_chain_links d chain = true → chain ≠ [] →
      d.fat_next (chain.getD (chain.length - 1) 0) = none := by
  intro chain
  induction chain with
  | nil =>
    intro _ hne
    exact absurd rfl hne
  | cons c tail ih =>
    intro hl _
    cases tail with
    | nil =>
      simpa [fat_chain_links] using hl
    | cons c2 rest =>
      have hl' := hl
      simp only [fat_chain_links, Bool.and_eq_true, decide_eq_true_eq] at hl'
      have := ih hl'.2 (by simp)
      simpa using this

/-- Reading n bytes inside one cluster at the cursor is reading the file
content bytes [p, p + n). -/
theorem fat_slice_eq (d : fat_fs_device_data) (chain : List Nat) (cur p n : Nat)
    (hcs : 1 ≤ d.cluster_size)
    (hn : p % d.cluster_size + n ≤ d.cluster_size)
    (hcur : cur = chain.getD (p / d.cluster_size) 0) :
    (List.range n).map (fun i => d.byte_at cur (p % d.cluster_size + i)) =
      (List.range' p n).map (fat_chain_byte d chain) := by
  rw [List.range'_eq_map_range, List.map_map]
  apply List.map_congr_left
  intro i hi
  have hi' : i < n := List.mem_range.mp hi
  have hstep := fat_div_mod_step d.cluster_size p i hcs (by omega)
  simp only [Function.comp, fat_chain_byte]
  rw [hstep.1, hstep.2, hcur]

/-- Behaviour of the fat_read cluster loop: with enough fuel it reads
exactly min(buffer space, bytes left in the file), appending those bytes
of the file content to the output, and keeps curr_cluster tracking the
cursor while it remains inside the file. -/
theorem fat_read_loop_spec (d : fat_fs_device_data) (chain : List Nat)
    (fsize bufsize : Nat)
    (hcs : 1 ≤ d.cluster_size)
    (hlinks : fat_chain_links d chain = true)
    (hlen : fsize ≤ chain.length * d.cluster_size) :
    ∀ (fuel : Nat) (h : fat_handle) (written : Nat) (out : List Nat),
      bufsize - written + 1 ≤ fuel →
      h.pos ≤ fsize →
      (h.pos < fsize → h.curr_cluster = chain.getD (h.pos / d.cluster_size) 0) →
      (fat_read_loop d fsize bufsize fuel h written out).1.pos =
          h.pos + min (bufsize - written) (fsize - h.pos) ∧
      (fat_read_loop d fsize bufsize fuel h written out).2.1 =
          written + min (bufsize - written) (fsize - h.pos) ∧
      (fat_read_loop d fsize bufsize fuel h written out).2.2 =
          out ++ (List.range' h.pos (min (bufsize - written) (fsize - h.pos))).map
            (fat_chain_byte d chain) ∧
      ((fat_read_loop d fsize bufsize fuel h written out).1.pos < fsize →
        (fat_read_loop d fsize bufsize fuel h written out).1.curr_cluster =
          chain.getD ((fat_read_loop d fsize bufsize fuel h written out).1.pos /
            d.cluster_size) 0) := by
  intro fuel
  induction fuel with
  | zero =>
    intro h written out hfuel _ _
    exact absurd hfuel (by omega)
  | succ fuel ih =>
    intro h written out hfuel hpos hcur
    have hcolt : h.pos % d.cluster_size < d.cluster_size := Nat.mod_lt _ (by omega)
    by_cases hcase :
        min (d.cluster_size - h.pos % d.cluster_size)
          (min (bufsize - written) (fsize - h.pos)) <
        d.cluster_size - h.pos % d.cluster_size
    · simp only [fat_read_loop]
      rw [if_pos hcase]
      have htr : min (d.cluster_size - h.pos % d.cluster_size)
          (min (bufsize - written) (fsize - h.pos)) =
          min (bufsize - written) (fsize - h.pos) := by omega
      refine ⟨by dsimp only; omega, by dsimp only; omega, ?_, ?_⟩
      · dsimp only
        rw [htr]
        congr 1
        rcases Nat.eq_zero_or_pos (min (bufsize - written) (fsize - h.pos)) with hz | hpos'
        · rw [hz]
          simp
        · exact fat_slice_eq d chain h.curr_cluster h.pos _ hcs (by omega)
            (hcur (by omega))
      · dsimp only
        intro hlt
        have hstep := fat_div_mod_step d.cluster_size h.pos
          (min (d.cluster_size - h.pos % d.cluster_size)
            (min (bufsize - written) (fsize - h.pos))) hcs (by omega)
        rw [hstep.1]
        exact hcur (by omega)
    · simp only [fat_read_loop]
      rw [if_neg hcase]
      have hcr1 : 1 ≤ d.cluster_size - h.pos % d.cluster_size := by omega
      have hplt : h.pos < fsize := by omega
      have hcur' : h.curr_cluster = chain.getD (h.pos / d.cluster_size) 0 := hcur hplt
      have hqlt : h.pos / d.cluster_size < chain.length := by
        rw [Nat.div_lt_iff_lt_mul (by omega : 0 < d.cluster_size)]
        omega
      have hbnd := fat_div_boundary d.cluster_size h.pos hcs
      have htr : min (d.cluster_size - h.pos % d.cluster_size)
          (min (bufsize - written) (fsize - h.pos)) =
          d.cluster_size - h.pos % d.cluster_size := by omega
      rcases hnext : d.fat_next h.curr_cluster with _ | c
      · have hlast : ¬ (h.pos / d.cluster_size + 1 < chain.length) := by
          intro hlt2
          have hn := fat_chain_links_next d chain hlinks (h.pos / d.cluster_size) hlt2
          rw [← hcur', hnext] at hn
          exact Option.noConfusion hn
        have hmulcomm : d.cluster_size * chain.length =
            chain.length * d.cluster_size := Nat.mul_comm _ _
        have hqeq : h.pos / d.cluster_size + 1 = chain.length := by omega
        have hposf : h.pos + (d.cluster_size - h.pos % d.cluster_size) = fsize := by
          have h1 := hbnd.1
          rw [hqeq] at h1
          omega
        refine ⟨by dsimp only; omega, by dsimp only; omega, ?_, ?_⟩
        · dsimp only
          rw [htr]
          have hmin : min (bufsize - written) (fsize - h.pos) =
              d.cluster_size - h.pos % d.cluster_size := by omega
          rw [hmin]
          congr 1
          exact fat_slice_eq d chain h.curr_cluster h.pos _ hcs (by omega) hcur'
        · dsimp only
          intro hlt
          rw [htr] at hlt
          omega
      · have hpos2 : h.pos + (d.cluster_size - h.pos % d.cluster_size) ≤ fsize := by
          omega
        have hfuel' : bufsize - (written +
            min (d.cluster_size - h.pos % d.cluster_size)
              (min (bufsize - written) (fsize - h.pos))) + 1 ≤ fuel := by omega
        have hcur2 : ∀ hlt2 : h.pos + (d.cluster_size - h.pos % d.cluster_size) < fsize,
            c = chain.getD
              ((h.pos + (d.cluster_size - h.pos % d.cluster_size)) / d.cluster_size) 0 := by
          intro hlt2
          have hq2 := hbnd.2
          have hq2lt : (h.pos + (d.cluster_size - h.pos % d.cluster_size)) /
              d.cluster_size < chain.length := by
            rw [Nat.div_lt_iff_lt_mul (by omega : 0 < d.cluster_size)]
            omega
          rw [hq2] at hq2lt
          have hn := fat_chain_links_next d chain hlinks (h.pos / d.cluster_size) hq2lt
          rw [← hcur', hnext] at hn
          rw [hq2]
          exact (Option.some.injEq _ _).mp hn
        obtain ⟨ih1, ih2, ih3, ih4⟩ :=
          ih { pos := h.pos +
                  min (d.cluster_size - h.pos % d.cluster_size)
                    (min (bufsize - written) (fsize - h.pos)),
               curr_cluster := c }
            (written + min (d.cluster_size - h.pos % d.cluster_size)
              (min (bufsize - written) (fsize - h.pos)))
            (out ++ (List.range (min (d.cluster_size - h.pos % d.cluster_size)
                (min (bufsize - written) (fsize - h.pos)))).map
              (fun i => d.byte_at h.curr_cluster (h.pos % d.cluster_size + i)))
            (by exact hfuel')
            (by
              show h.pos + min (d.cluster_size - h.pos % d.cluster_size)
                (min (bufsize - written) (fsize - h.pos)) ≤ fsize
              omega)
            (by
              show h.pos + min (d.cluster_size - h.pos % d.cluster_size)
                  (min (bufsize - written) (fsize - h.pos)) < fsize →
                c = chain.getD ((h.pos + min (d.cluster_size - h.pos % d.cluster_size)
                  (min (bufsize - written) (fsize - h.pos))) / d.cluster_size) 0
              rw [htr]
              exact hcur2)
        refine ⟨?_, ?_, ?_, ?_⟩
        · rw [ih1]
          dsimp only
          omega
        · rw [ih2]
          dsimp only
          omega
        · rw [ih3]
          dsimp only
          rw [List.append_assoc]
          congr 1
          rw [htr]
          rw [fat_slice_eq d chain h.curr_cluster h.pos
            (d.cluster_size - h.pos % d.cluster_size) hcs (by omega) hcur']
          rw [← List.map_append]
          congr 1
          have hap := List.range'_append h.pos
            (d.cluster_size - h.pos % d.cluster_size)
            (min (bufsize - (written + (d.cluster_size - h.pos % d.cluster_size)))
              (fsize - (h.pos + (d.cluster_size - h.pos % d.cluster_size)))) 1
          simp only [Nat.one_mul] at hap
          rw [hap]
          congr 1
          omega
        · exact ih4

/-- A segment [p, p+k) of the file content, as a drop/take slice. -/
theorem fat_content_slice (d : fat_fs_device_data) (chain : List Nat)
    (fsize p k : Nat) (hpk : p + k ≤ fsize) :
    ((fat_file_content d chain fsize).drop p).take k =
      (List.range' p k).map (fat_chain_byte d chain) := by
  apply List.ext_getElem
  · simp only [fat_file_content, List.length_take, List.length_drop,
      List.length_map, List.length_range, List.length_range']
    omega
  · intro n h1 h2
    rw [List.getElem_take, List.getElem_drop]
    simp only [fat_file_content]
    rw [List.getElem_map, List.getElem_range, List.getElem_map, List.getElem_range']
    simp

/-- fat_read in terms of its handle: pos at or past the end reads
nothing; otherwise exactly min(bufsize, size − pos) content bytes are
returned, the cursor advances by that amount and the handle invariant is
preserved. -/
theorem fat_read_spec (d : fat_fs_device_data) (e : fat_entry) (chain : List Nat)
    (h : fat_handle) (bufsize : Nat)
    (hwf : fat_wf d e chain) (hinv : fat_handle_inv d e chain h) :
    (e.DIR_FileSize ≤ h.pos → fat_read d e h bufsize = (h, 0, [])) ∧
    (h.pos < e.DIR_FileSize →
      (fat_read d e h bufsize).1.pos =
          h.pos + min bufsize (e.DIR_FileSize - h.pos) ∧
      (fat_read d e h bufsize).2.1 = min bufsize (e.DIR_FileSize - h.pos) ∧
      (fat_read d e h bufsize).2.2 =
          (List.range' h.pos (min bufsize (e.DIR_FileSize - h.pos))).map
            (fat_chain_byte d chain) ∧
      fat_handle_inv d e chain (fat_read d e h bufsize).1) := by
  obtain ⟨hcs, hne, hfirst, hlen, hlinks⟩ := hwf
  constructor
  · intro hge
    simp only [fat_read]
    rw [if_pos (by omega)]
  · intro hlt
    simp only [fat_read]
    rw [if_neg (by omega)]
    obtain ⟨l1, l2, l3, l4⟩ :=
      fat_read_loop_spec d chain e.DIR_FileSize bufsize hcs hlinks hlen
        (bufsize + 1) h 0 [] (by omega) (by omega) hinv.1
    rw [Nat.sub_zero] at l1 l2 l3
    rw [Nat.zero_add] at l2
    refine ⟨l1, l2, by rw [l3, List.nil_append], l4, ?_⟩
    intro hgt
    rw [l1] at hgt
    exact absurd hgt (by omega)

/-- fat_rewind restores the open-handle invariant. -/
theorem fat_rewind_inv (d : fat_fs_device_data) (e : fat_entry) (chain : List Nat)
    (h : fat_handle) (hwf : fat_wf d e chain) :
    fat_handle_inv d e chain (fat_rewind e h) := by
  obtain ⟨hcs, hne, hfirst, hlen, hlinks⟩ := hwf
  refine ⟨?_, ?_⟩
  · intro _
    show e.first_cluster = chain.getD (0 / d.cluster_size) 0
    rw [Nat.zero_div, hfirst]
  · intro hgt
    exact absurd (show (0 : Nat) > e.DIR_FileSize from hgt) (by omega)

/-- Behaviour of the fat_seek_forward walking loop: with enough fuel it
advances the cursor by the remaining distance, tracking curr_cluster. -/
theorem fat_seek_forward_loop_spec (d : fat_fs_device_data) (chain : List Nat)
    (fsize dist : Nat)
    (hcs : 1 ≤ d.cluster_size)
    (hlinks : fat_chain_links d chain = true)
    (hlen : fsize ≤ chain.length * d.cluster_size) :
    ∀ (fuel : Nat) (h : fat_handle) (moved : Nat),
      dist - moved + 1 ≤ fuel →
      moved ≤ dist →
      h.pos + (dist - moved) ≤ fsize →
      (h.pos < fsize → h.curr_cluster = chain.getD (h.pos / d.cluster_size) 0) →
      (fat_seek_forward_loop d fsize dist fuel h moved).pos =
          h.pos + (dist - moved) ∧
      ((fat_seek_forward_loop d fsize dist fuel h moved).pos < fsize →
        (fat_seek_forward_loop d fsize dist fuel h moved).curr_cluster =
          chain.getD ((fat_seek_forward_loop d fsize dist fuel h moved).pos /
            d.cluster_size) 0) := by
  intro fuel
  induction fuel with
  | zero =>
    intro h moved hfuel _ _ _
    exact absurd hfuel (by omega)
  | succ fuel ih =>
    intro h moved hfuel hmd hrange hcur
    have hcolt : h.pos % d.cluster_size < d.cluster_size := Nat.mod_lt _ (by omega)
    by_cases hcase :
        min (d.cluster_size - h.pos % d.cluster_size)
          (min (dist - moved) (fsize - h.pos)) <
        d.cluster_size - h.pos % d.cluster_size
    · simp only [fat_seek_forward_loop]
      rw [if_pos hcase]
      refine ⟨by dsimp only; omega, ?_⟩
      dsimp only
      intro hlt
      have hstep := fat_div_mod_step d.cluster_size h.pos
        (min (d.cluster_size - h.pos % d.cluster_size)
          (min (dist - moved) (fsize - h.pos))) hcs (by omega)
      rw [hstep.1]
      exact hcur (by omega)
    · simp only [fat_seek_forward_loop]
      rw [if_neg hcase]
      have hcr1 : 1 ≤ d.cluster_size - h.pos % d.cluster_size := by omega
      have hplt : h.pos < fsize := by omega
      have hcur' : h.curr_cluster = chain.getD (h.pos / d.cluster_size) 0 := hcur hplt
      have hqlt : h.pos / d.cluster_size < chain.length := by
        rw [Nat.div_lt_iff_lt_mul (by omega : 0 < d.cluster_size)]
        omega
      have hbnd := fat_div_boundary d.cluster_size h.pos hcs
      have htr : min (d.cluster_size - h.pos % d.cluster_size)
          (min (dist - moved) (fsize - h.pos)) =
          d.cluster_size - h.pos % d.cluster_size := by omega
      rcases hnext : d.fat_next h.curr_cluster with _ | c
      · have hlast : ¬ (h.pos / d.cluster_size + 1 < chain.length) := by
          intro hlt2
          have hn := fat_chain_links_next d chain hlinks (h.pos / d.cluster_size) hlt2
          rw [← hcur', hnext] at hn
          exact Option.noConfusion hn
        have hmulcomm : d.cluster_size * chain.length =
            chain.length * d.cluster_size := Nat.mul_comm _ _
        have hqeq : h.pos / d.cluster_size + 1 = chain.length := by omega
        have hposf : h.pos + (d.cluster_size - h.pos % d.cluster_size) = fsize := by
          have h1 := hbnd.1
          rw [hqeq] at h1
          omega
        refine ⟨by dsimp only; omega, ?_⟩
        dsimp only
        intro hlt
        rw [htr] at hlt
        exact absurd hlt (by omega)
      · have hcur2 : ∀ _ : h.pos + (d.cluster_size - h.pos % d.cluster_size) < fsize,
            c = chain.getD
              ((h.pos + (d.cluster_size - h.pos % d.cluster_size)) / d.cluster_size) 0 := by
          intro hlt2
          have hq2 := hbnd.2
          have hq2lt : (h.pos + (d.cluster_size - h.pos % d.cluster_size)) /
              d.cluster_size < chain.length := by
            rw [Nat.div_lt_iff_lt_mul (by omega : 0 < d.cluster_size)]
            omega
          rw [hq2] at hq2lt
          have hn := fat_chain_links_next d chain hlinks (h.pos / d.cluster_size) hq2lt
          rw [← hcur', hnext] at hn
          rw [hq2]
          exact (Option.some.injEq _ _).mp hn
        obtain ⟨ih1, ih2⟩ :=
          ih { pos := h.pos +
                  min (d.cluster_size - h.pos % d.cluster_size)
                    (min (dist - moved) (fsize - h.pos)),
               curr_cluster := c }
            (moved + min (d.cluster_size - h.pos % d.cluster_size)
              (min (dist - moved) (fsize - h.pos)))
            (by exact show dist - (moved + _) + 1 ≤ fuel from by omega)
            (by exact show moved + _ ≤ dist from by omega)
            (by
              show h.pos + min (d.cluster_size - h.pos % d.cluster_size)
                  (min (dist - moved) (fsize - h.pos)) +
                (dist - (moved + min (d.cluster_size - h.pos % d.cluster_size)
                  (min (dist - moved) (fsize - h.pos)))) ≤ fsize
              omega)
            (by
              show h.pos + min (d.cluster_size - h.pos % d.cluster_size)
                  (min (dist - moved) (fsize - h.pos)) < fsize →
                c = chain.getD ((h.pos + min (d.cluster_size - h.pos % d.cluster_size)
                  (min (dist - moved) (fsize - h.pos))) / d.cluster_size) 0
              rw [htr]
              exact hcur2)
        refine ⟨?_, ih2⟩
        rw [ih1]
        dsimp only
        omega

/-- fat_seek_forward always moves the cursor dist bytes further from the
current position, returning the new position, with the handle invariant
preserved (curr_cluster becomes the invalid sentinel past the end). -/
theorem fat_seek_forward_spec (d : fat_fs_device_data) (e : fat_entry)
    (chain : List Nat) (h : fat_handle) (dist : Nat)
    (hwf : fat_wf d e chain) (hinv : fat_handle_inv d e chain h) :
    (fat_seek_forward d e.DIR_FileSize h dist).2 = ((h.pos + dist : Nat) : Int) ∧
    (fat_seek_forward d e.DIR_FileSize h dist).1.pos = h.pos + dist ∧
    fat_handle_inv d e chain (fat_seek_forward d e.DIR_FileSize h dist).1 := by
  have hwf' := hwf
  obtain ⟨hcs, hne, hfirst, hlen, hlinks⟩ := hwf'
  by_cases h0 : dist = 0
  · subst h0
    simp only [fat_seek_forward, if_true]
    exact ⟨by simp, by simp, hinv⟩
  · by_cases hpast : h.pos + dist > e.DIR_FileSize
    · simp only [fat_seek_forward]
      rw [if_neg h0, if_pos hpast]
      refine ⟨rfl, rfl, ?_, ?_⟩
      · intro hlt
        exact absurd (show h.pos + dist < e.DIR_FileSize from hlt) (by omega)
      · intro _
        rfl
    · simp only [fat_seek_forward]
      rw [if_neg h0, if_neg hpast]
      obtain ⟨l1, l2⟩ :=
        fat_seek_forward_loop_spec d chain e.DIR_FileSize dist hcs hlinks hlen
          (dist + 1) h 0 (by omega) (by omega) (by omega) hinv.1
      rw [Nat.sub_zero] at l1
      refine ⟨by exact congrArg _ l1, l1, by exact l2, ?_⟩
      intro hgt
      have hgt' : (fat_seek_forward_loop d e.DIR_FileSize dist (dist + 1) h 0).pos >
          e.DIR_FileSize := hgt
      exact absurd hgt' (by omega)

/-- Sequentially reading with any chunk sizes whose total covers the
rest of the file consumes exactly the remaining content and parks the
cursor at the end, preserving the handle invariant. -/
theorem fat_read_chunks_spec (d : fat_fs_device_data) (e : fat_entry)
    (chain : List Nat) (hwf : fat_wf d e chain) :
    ∀ (ns : List Nat) (h : fat_handle),
      fat_handle_inv d e chain h →
      h.pos ≤ e.DIR_FileSize →
      e.DIR_FileSize - h.pos ≤ ns.sum →
      (fat_read_chunks d e h ns).2 =
        (List.range' h.pos (e.DIR_FileSize - h.pos)).map (fat_chain_byte d chain) ∧
      (fat_read_chunks d e h ns).1.pos = e.DIR_FileSize ∧
      fat_handle_inv d e chain (fat_read_chunks d e h ns).1 := by
  intro ns
  induction ns with
  | nil =>
    intro h hinv hpos hsum
    simp only [List.sum_nil] at hsum
    have hz : e.DIR_FileSize - h.pos = 0 := by omega
    refine ⟨?_, ?_, hinv⟩
    · rw [hz]
      rfl
    · show h.pos = e.DIR_FileSize
      omega
  | cons n ns ih =>
    intro h hinv hpos hsum
    simp only [List.sum_cons] at hsum
    by_cases hend : e.DIR_FileSize ≤ h.pos
    · have hr := (fat_read_spec d e chain h n hwf hinv).1 hend
      simp only [fat_read_chunks]
      rw [hr]
      obtain ⟨i1, i2, i3⟩ := ih h hinv hpos (by omega)
      exact ⟨by rw [List.nil_append, i1], i2, i3⟩
    · obtain ⟨r1, r2, r3, rinv⟩ := (fat_read_spec d e chain h n hwf hinv).2 (by omega)
      simp only [fat_read_chunks]
      obtain ⟨i1, i2, i3⟩ := ih (fat_read d e h n).1 rinv (by rw [r1]; omega)
        (by rw [r1]; omega)
      refine ⟨?_, i2, i3⟩
      rw [r3, i1, r1]
      rw [← List.map_append]
      congr 1
      have hap := List.range'_append h.pos (min n (e.DIR_FileSize - h.pos))
        (e.DIR_FileSize - (h.pos + min n (e.DIR_FileSize - h.pos))) 1
      simp only [Nat.one_mul] at hap
      rw [hap]
      congr 1
      omega

/-! ## C6: fat_read -/

/-- C6: fat_read returns 0 and changes nothing when pos is at or past the
file size; otherwise it copies exactly min(bufsize, size − pos) bytes of
the file content starting at offset pos, advances pos by that count and
returns it; and sequentially reading with any chunk sizes covering the
file, from a fresh handle, yields the byte-identical file content, ends
with pos = size, and a further read returns 0. -/
theorem fat_read_full_spec (d : fat_fs_device_data) (e : fat_entry)
    (chain : List Nat) (h : fat_handle) (bufsize : Nat) (ns : List Nat)
    (hwf : fat_wf d e chain) (hinv : fat_handle_inv d e chain h)
    (hsum : e.DIR_FileSize ≤ ns.sum) :
    (e.DIR_FileSize ≤ h.pos → fat_read d e h bufsize = (h, 0, [])) ∧
    (h.pos < e.DIR_FileSize →
      (fat_read d e h bufsize).2.1 = min bufsize (e.DIR_FileSize - h.pos) ∧
      (fat_read d e h bufsize).1.pos =
        h.pos + min bufsize (e.DIR_FileSize - h.pos) ∧
      (fat_read d e h bufsize).2.2 =
        ((fat_file_content d chain e.DIR_FileSize).drop h.pos).take
          (min bufsize (e.DIR_FileSize - h.pos))) ∧
    ((fat_read_chunks d e (fat_open_handle e) ns).2 =
        fat_file_content d chain e.DIR_FileSize ∧
      (fat_read_chunks d e (fat_open_handle e) ns).1.pos = e.DIR_FileSize ∧
      fat_read d e (fat_read_chunks d e (fat_open_handle e) ns).1 bufsize =
        ((fat_read_chunks d e (fat_open_handle e) ns).1, 0, [])) := by
  have hoinv : fat_handle_inv d e chain (fat_open_handle e) :=
    fat_rewind_inv d e chain (fat_open_handle e) hwf
  refine ⟨(fat_read_spec d e chain h bufsize hwf hinv).1, ?_, ?_⟩
  · intro hlt
    obtain ⟨r1, r2, r3, _⟩ := (fat_read_spec d e chain h bufsize hwf hinv).2 hlt
    refine ⟨r2, r1, ?_⟩
    rw [r3, fat_content_slice d chain e.DIR_FileSize h.pos
      (min bufsize (e.DIR_FileSize - h.pos)) (by omega)]
  · obtain ⟨i1, i2, i3⟩ := fat_read_chunks_spec d e chain hwf ns
      (fat_open_handle e) hoinv (by show (0 : Nat) ≤ _; omega)
      (by show e.DIR_FileSize - (0 : Nat) ≤ _; omega)
    refine ⟨?_, i2, ?_⟩
    · rw [i1]
      show _ = (List.range e.DIR_FileSize).map (fat_chain_byte d chain)
      rw [List.range_eq_range']
      congr 1
    · exact (fat_read_spec d e chain (fat_read_chunks d e (fat_open_handle e) ns).1
        bufsize hwf i3).1 (by omega)

/-- C6 witness: on the 6-byte sample file, reading in chunks 1, 2, 3
yields the whole file content. -/
theorem fat_read_full_spec_witness :
    (fat_read_chunks fat_dev_sample fat_entry_sample
        (fat_open_handle fat_entry_sample) [1, 2, 3]).2 =
      fat_file_content fat_dev_sample [5, 9] fat_entry_sample.DIR_FileSize :=
  (fat_read_full_spec fat_dev_sample fat_entry_sample [5, 9]
    (fat_open_handle fat_entry_sample) 3 [1, 2, 3]
    (by unfold fat_wf; decide) (by unfold fat_handle_inv; decide)
    (by decide)).2.2.1

/-! ## C5: fat_seek -/

/-- C5 counterexample: the claim translates SEEK_END as size + off for
every offset. On the code, SEEK_END with off ≥ 0 does not rewind nor
translate: it seeks forward off bytes from the current position. On the
6-byte sample file at pos 0, fat_seek(h, 0, SEEK_END) returns 0 with pos
still 0, instead of the claimed target size + 0 = 6. -/
theorem fat_seek_end_counterexample :
    fat_seek fat_dev_sample fat_entry_sample (fat_open_handle fat_entry_sample)
        0 SEEK_END =
      (fat_open_handle fat_entry_sample, 0) ∧
    (fat_entry_sample.DIR_FileSize : Int) + 0 = 6 ∧
    (fat_seek fat_dev_sample fat_entry_sample (fat_open_handle fat_entry_sample)
        0 SEEK_END).1.pos ≠ 6 ∧
    (fat_seek fat_dev_sample fat_entry_sample (fat_open_handle fat_entry_sample)
        0 SEEK_END).2 ≠ 6 := by
  decide

/-- The SEEK_SET arm of fat_seek on a file handle. -/
theorem fat_seek_set_eq (d : fat_fs_device_data) (e : fat_entry)
    (h : fat_handle) (off : Int) (hdir : e.directory = false) :
    fat_seek d e h off SEEK_SET =
      if off < 0 then (h, -EINVAL)
      else fat_seek_forward d e.DIR_FileSize (fat_rewind e h) off.toNat := by
  simp [fat_seek, hdir]

/-- The SEEK_CUR arm of fat_seek on a file handle. -/
theorem fat_seek_cur_eq (d : fat_fs_device_data) (e : fat_entry)
    (h : fat_handle) (off : Int) (hdir : e.directory = false) :
    fat_seek d e h off SEEK_CUR =
      if off < 0 then
        if (h.pos : Int) + off < 0 then (h, -EINVAL)
        else fat_seek_forward d e.DIR_FileSize (fat_rewind e h)
          ((h.pos : Int) + off).toNat
      else fat_seek_forward d e.DIR_FileSize h off.toNat := by
  simp [fat_seek, hdir, SEEK_CUR, SEEK_SET, SEEK_END]

/-- The SEEK_END arm of fat_seek on a file handle. -/
theorem fat_seek_end_eq (d : fat_fs_device_data) (e : fat_entry)
    (h : fat_handle) (off : Int) (hdir : e.directory = false) :
    fat_seek d e h off SEEK_END =
      if off ≥ 0 then fat_seek_forward d e.DIR_FileSize h off.toNat
      else
        if (e.DIR_FileSize : Int) + off < 0 then (h, -EINVAL)
        else fat_seek_forward d e.DIR_FileSize (fat_rewind e h)
          ((e.DIR_FileSize : Int) + off).toNat := by
  simp [fat_seek, hdir, SEEK_CUR, SEEK_SET, SEEK_END]

/-- fat_seek rejects any other whence on a file handle. -/
theorem fat_seek_other_eq (d : fat_fs_device_data) (e : fat_entry)
    (h : fat_handle) (off : Int) (whence : Nat) (hdir : e.directory = false)
    (h1 : whence ≠ SEEK_SET) (h2 : whence ≠ SEEK_CUR) (h3 : whence ≠ SEEK_END) :
    fat_seek d e h off whence = (h, -EINVAL) := by
  simp [fat_seek, hdir, h1, h2, h3]

/-- C5 (amended): for a non-directory handle, fat_seek computes the
target as: off for SEEK_SET; pos + off for SEEK_CUR; and for SEEK_END,
size + off when off < 0 but pos + off when off ≥ 0 (the code falls
through without rewinding or translating nonnegative END offsets). A
negative target fails with -EINVAL leaving the handle unchanged;
otherwise pos becomes the target and it is returned; the handle
invariant is preserved, in particular seeking past the end sets
curr_cluster to the invalid sentinel; any other whence fails with
-EINVAL; after seek(SET, size + k), k > 0, a read returns 0; and
seek(CUR, −1) at position 0 returns -EINVAL. -/
theorem fat_seek_spec (d : fat_fs_device_data) (e : fat_entry)
    (chain : List Nat) (h : fat_handle) (off : Int) (whence : Nat)
    (hwf : fat_wf d e chain) (hinv : fat_handle_inv d e chain h)
    (hdir : e.directory = false) :
    (whence = SEEK_SET →
      (off < 0 → fat_seek d e h off whence = (h, -EINVAL)) ∧
      (0 ≤ off →
        (fat_seek d e h off whence).2 = off ∧
        ((fat_seek d e h off whence).1.pos : Int) = off ∧
        fat_handle_inv d e chain (fat_seek d e h off whence).1)) ∧
    (whence = SEEK_CUR →
      ((h.pos : Int) + off < 0 → fat_seek d e h off whence = (h, -EINVAL)) ∧
      (0 ≤ (h.pos : Int) + off →
        (fat_seek d e h off whence).2 = (h.pos : Int) + off ∧
        ((fat_seek d e h off whence).1.pos : Int) = (h.pos : Int) + off ∧
        fat_handle_inv d e chain (fat_seek d e h off whence).1)) ∧
    (whence = SEEK_END → off < 0 →
      ((e.DIR_FileSize : Int) + off < 0 →
        fat_seek d e h off whence = (h, -EINVAL)) ∧
      (0 ≤ (e.DIR_FileSize : Int) + off →
        (fat_seek d e h off whence).2 = (e.DIR_FileSize : Int) + off ∧
        ((fat_seek d e h off whence).1.pos : Int) = (e.DIR_FileSize : Int) + off ∧
        fat_handle_inv d e chain (fat_seek d e h off whence).1)) ∧
    (whence = SEEK_END → 0 ≤ off →
      (fat_seek d e h off whence).2 = (h.pos : Int) + off ∧
      ((fat_seek d e h off whence).1.pos : Int) = (h.pos : Int) + off ∧
      fat_handle_inv d e chain (fat_seek d e h off whence).1) ∧
    (whence ≠ SEEK_SET → whence ≠ SEEK_CUR → whence ≠ SEEK_END →
      fat_seek d e h off whence = (h, -EINVAL)) ∧
    (∀ k : Nat, 0 < k → ∀ bufsize,
      fat_read d e
          (fat_seek d e h ((e.DIR_FileSize + k : Nat) : Int) SEEK_SET).1 bufsize =
        ((fat_seek d e h ((e.DIR_FileSize + k : Nat) : Int) SEEK_SET).1, 0, [])) ∧
    (h.pos = 0 → fat_seek d e h (-1) SEEK_CUR = (h, -EINVAL)) := by
  have hrinv : fat_handle_inv d e chain (fat_rewind e h) :=
    fat_rewind_inv d e chain h hwf
  have hrpos : (fat_rewind e h).pos = 0 := rfl
  refine ⟨?_, ?_, ?_, ?_, ?_, ?_, ?_⟩
  · intro hw
    subst hw
    constructor
    · intro hneg
      rw [fat_seek_set_eq d e h off hdir, if_pos hneg]
    · intro ho
      rw [fat_seek_set_eq d e h off hdir, if_neg (by omega)]
      obtain ⟨f1, f2, f3⟩ :=
        fat_seek_forward_spec d e chain (fat_rewind e h) off.toNat hwf hrinv
      rw [hrpos] at f1 f2
      exact ⟨by rw [f1]; omega, by rw [f2]; omega, f3⟩
  · intro hw
    subst hw
    constructor
    · intro hneg
      have hoff : off < 0 := by omega
      rw [fat_seek_cur_eq d e h off hdir, if_pos hoff, if_pos hneg]
    · intro ho
      by_cases hoff : off < 0
      · rw [fat_seek_cur_eq d e h off hdir, if_pos hoff, if_neg (by omega)]
        obtain ⟨f1, f2, f3⟩ :=
          fat_seek_forward_spec d e chain (fat_rewind e h)
            ((h.pos : Int) + off).toNat hwf hrinv
        rw [hrpos] at f1 f2
        exact ⟨by rw [f1]; omega, by rw [f2]; omega, f3⟩
      · rw [fat_seek_cur_eq d e h off hdir, if_neg hoff]
        obtain ⟨f1, f2, f3⟩ :=
          fat_seek_forward_spec d e chain h off.toNat hwf hinv
        exact ⟨by rw [f1]; omega, by rw [f2]; omega, f3⟩
  · intro hw hoff
    subst hw
    constructor
    · intro hneg
      rw [fat_seek_end_eq d e h off hdir, if_neg (by omega), if_pos hneg]
    · intro ho
      rw [fat_seek_end_eq d e h off hdir, if_neg (by omega), if_neg (by omega)]
      obtain ⟨f1, f2, f3⟩ :=
        fat_seek_forward_spec d e chain (fat_rewind e h)
          ((e.DIR_FileSize : Int) + off).toNat hwf hrinv
      rw [hrpos] at f1 f2
      exact ⟨by rw [f1]; omega, by rw [f2]; omega, f3⟩
  · intro hw hoff
    subst hw
    rw [fat_seek_end_eq d e h off hdir, if_pos (by omega)]
    obtain ⟨f1, f2, f3⟩ := fat_seek_forward_spec d e chain h off.toNat hwf hinv
    exact ⟨by rw [f1]; omega, by rw [f2]; omega, f3⟩
  · intro h1 h2 h3
    exact fat_seek_other_eq d e h off whence hdir h1 h2 h3
  · intro k hk bufsize
    rw [fat_seek_set_eq d e h ((e.DIR_FileSize + k : Nat) : Int) hdir,
      if_neg (by omega)]
    obtain ⟨f1, f2, f3⟩ :=
      fat_seek_forward_spec d e chain (fat_rewind e h)
        (((e.DIR_FileSize + k : Nat) : Int)).toNat hwf hrinv
    rw [hrpos] at f2
    have hge : (fat_seek_forward d e.DIR_FileSize (fat_rewind e h)
        (((e.DIR_FileSize + k : Nat) : Int)).toNat).1.pos ≥ e.DIR_FileSize := by
      rw [f2]
      omega
    simp only [fat_read]
    rw [if_pos hge]
  · intro hp0
    rw [fat_seek_cur_eq d e h (-1) hdir, if_pos (by decide), if_pos (by omega)]

/-- C5 amended-claim witness: on the sample file, seek(CUR, −1) at
position 0 fails with -EINVAL leaving the handle unchanged. -/
theorem fat_seek_spec_witness :
    fat_seek fat_dev_sample fat_entry_sample (fat_open_handle fat_entry_sample)
        (-1) SEEK_CUR =
      (fat_open_handle fat_entry_sample, -EINVAL) :=
  (fat_seek_spec fat_dev_sample fat_entry_sample [5, 9]
    (fat_open_handle fat_entry_sample) (-1) SEEK_CUR
    (by unfold fat_wf; decide) (by unfold fat_handle_inv; decide)
    (by decide)).2.2.2.2.2.2 rfl

/-! ## C1: kmutex_unlock hand-off -/

/-- C1: when the owner unlocks (with a recursive count back at 1, i.e.
this unlock really releases), either no sleeping task waits on the mutex
— then the mutex is left free and the sleeping list is completely
unchanged — or the first waiter in list order becomes the new owner:
its state becomes runnable, its wait object is cleared, a recursive
mutex gets lock_count 1, and every task before and after it is untouched. -/
theorem kmutex_unlock_spec (m : kmutex) (curr : Nat) (ts : List task_info)
    (hown : m.owner_task = some curr)
    (hrec : m.recursive = true → m.lock_count = 1) :
    ((∀ t ∈ ts, t.wobj ≠ some m.id) →
      (kmutex_unlock m ts).1.owner_task = none ∧
      (m.recursive = true → (kmutex_unlock m ts).1.lock_count = 0) ∧
      (kmutex_unlock m ts).2 = ts) ∧
    (∀ pre w post, ts = pre ++ w :: post →
      (∀ t ∈ pre, t.wobj ≠ some m.id) → w.wobj = some m.id →
      (kmutex_unlock m ts).1.owner_task = some w.tid ∧
      (m.recursive = true → (kmutex_unlock m ts).1.lock_count = 1) ∧
      (kmutex_unlock m ts).2 =
        pre ++ { w with state := .runnable, wobj := none } :: post) := by
  obtain ⟨mid, mrec, mown, mlc⟩ := m
  simp only at hown hrec
  subst hown
  constructor
  · intro hw
    cases mrec
    · simp only [kmutex_unlock]
      rw [if_neg (by simp)]
      rw [kmutex_unlock_scan_no_waiter mid ts hw]
      exact ⟨rfl, by simp, rfl⟩
    · have hlc : mlc = 1 := hrec rfl
      subst hlc
      simp only [kmutex_unlock]
      rw [if_neg (by simp)]
      rw [kmutex_unlock_scan_no_waiter mid ts hw]
      exact ⟨rfl, fun _ => rfl, rfl⟩
  · intro pre w post hts hpre hwobj
    subst hts
    cases mrec
    · simp only [kmutex_unlock]
      rw [if_neg (by simp)]
      rw [kmutex_unlock_scan_first mid pre post w hpre hwobj]
      exact ⟨rfl, by simp, rfl⟩
    · have hlc : mlc = 1 := hrec rfl
      subst hlc
      simp only [kmutex_unlock]
      rw [if_neg (by simp)]
      rw [kmutex_unlock_scan_first mid pre post w hpre hwobj]
      exact ⟨rfl, fun _ => rfl, rfl⟩

/-- C1 witness: unlocking a non-recursive mutex with sleeping tasks
[waiting on 99, waiting on 7, waiting on 7] hands mutex 7 to the second
task only. -/
theorem kmutex_unlock_spec_witness :
    (kmutex_unlock
      { id := 7, recursive := false, owner_task := some 1, lock_count := 0 }
      [⟨2, .sleeping, some 99⟩, ⟨3, .sleeping, some 7⟩, ⟨4, .sleeping, some 7⟩]).2 =
      [⟨2, .sleeping, some 99⟩, ⟨3, .runnable, none⟩, ⟨4, .sleeping, some 7⟩] :=
  ((kmutex_unlock_spec
      { id := 7, recursive := false, owner_task := some 1, lock_count := 0 } 1
      [⟨2, .sleeping, some 99⟩, ⟨3, .sleeping, some 7⟩, ⟨4, .sleeping, some 7⟩]
      rfl (by simp)).2
    [⟨2, .sleeping, some 99⟩] ⟨3, .sleeping, some 7⟩ [⟨4, .sleeping, some 7⟩]
    rfl (by decide) rfl).2.2

/-! ## getdents callback and walk lemmas -/

/-- The callback skips an entry while curr_index is behind pos. -/
theorem vfs_getdents_cb_skip (cf : Nat → Nat → Bool) (ctx : vfs_getdents_ctx)
    (d : vfs_dent64) (hlt : ctx.curr_index < ctx.pos) :
    vfs_getdents_cb cf ctx d = ({ ctx with curr_index := ctx.curr_index + 1 }, 0) := by
  simp only [vfs_getdents_cb]
  rw [if_pos hlt]

/-- The callback on a pending entry that does not fit the buffer. -/
theorem vfs_getdents_cb_overflow (cf : Nat → Nat → Bool) (ctx : vfs_getdents_ctx)
    (d : vfs_dent64) (hci : ctx.curr_index = ctx.pos)
    (hfit : ctx.buf_size < ctx.offset + dirent_size d) :
    vfs_getdents_cb cf ctx d =
      if ctx.offset = 0 then (ctx, -EINVAL) else (ctx, (ctx.offset : Int)) := by
  have hfit' : ctx.buf_size < ctx.offset + (linux_dirent64_hdr_size + d.name.length + 1) :=
    hfit
  simp only [vfs_getdents_cb]
  rw [if_neg (by omega), if_pos (by omega)]

/-- The callback emitting a fitting entry with both copies succeeding. -/
theorem vfs_getdents_cb_emit (cf : Nat → Nat → Bool) (ctx : vfs_getdents_ctx)
    (d : vfs_dent64) (hci : ctx.curr_index = ctx.pos)
    (hfit : ctx.offset + dirent_size d ≤ ctx.buf_size)
    (hcp1 : cf ctx.offset linux_dirent64_hdr_size = false)
    (hcp2 : cf (ctx.offset + linux_dirent64_hdr_size) (d.name.length + 1) = false) :
    vfs_getdents_cb cf ctx d =
      ({ ctx with
         writes := ctx.writes ++
           [user_write.hdr ctx.offset d.ino (ctx.offset + dirent_size d)
             (dirent_size d) (vfs_type_to_linux_dirent_type d.typ),
            user_write.name (ctx.offset + linux_dirent64_hdr_size) d.name],
         offset := ctx.offset + dirent_size d,
         curr_index := ctx.curr_index + 1,
         pos := ctx.pos + 1 }, 0) := by
  have hfit' : ctx.offset + (linux_dirent64_hdr_size + d.name.length + 1) ≤ ctx.buf_size :=
    hfit
  simp only [vfs_getdents_cb]
  rw [if_neg (by omega), if_neg (by omega),
    if_neg (by rw [hcp1]; exact Bool.false_ne_true),
    if_neg (by rw [hcp2]; exact Bool.false_ne_true)]
  simp [dirent_size]

/-- The callback faulting while copying the record header. -/
theorem vfs_getdents_cb_fault_hdr (cf : Nat → Nat → Bool) (ctx : vfs_getdents_ctx)
    (d : vfs_dent64) (hci : ctx.curr_index = ctx.pos)
    (hfit : ctx.offset + dirent_size d ≤ ctx.buf_size)
    (hcp1 : cf ctx.offset linux_dirent64_hdr_size = true) :
    vfs_getdents_cb cf ctx d = (ctx, -EFAULT) := by
  have hfit' : ctx.offset + (linux_dirent64_hdr_size + d.name.length + 1) ≤ ctx.buf_size :=
    hfit
  simp only [vfs_getdents_cb]
  rw [if_neg (by omega), if_neg (by omega), if_pos hcp1]

/-- The callback faulting while copying the name, after the header write. -/
theorem vfs_getdents_cb_fault_name (cf : Nat → Nat → Bool) (ctx : vfs_getdents_ctx)
    (d : vfs_dent64) (hci : ctx.curr_index = ctx.pos)
    (hfit : ctx.offset + dirent_size d ≤ ctx.buf_size)
    (hcp1 : cf ctx.offset linux_dirent64_hdr_size = false)
    (hcp2 : cf (ctx.offset + linux_dirent64_hdr_size) (d.name.length + 1) = true) :
    vfs_getdents_cb cf ctx d =
      ({ ctx with
         writes := ctx.writes ++
           [user_write.hdr ctx.offset d.ino (ctx.offset + dirent_size d)
             (dirent_size d) (vfs_type_to_linux_dirent_type d.typ)] }, -EFAULT) := by
  have hfit' : ctx.offset + (linux_dirent64_hdr_size + d.name.length + 1) ≤ ctx.buf_size :=
    hfit
  simp only [vfs_getdents_cb]
  rw [if_neg (by omega), if_neg (by omega),
    if_neg (by rw [hcp1]; exact Bool.false_ne_true), if_pos hcp2]
  simp [dirent_size]

/-- The walk over entries that are all skipped. -/
theorem vfs_getdents_walk_skip_all (cf : Nat → Nat → Bool) :
    ∀ (ds : List vfs_dent64) (ctx : vfs_getdents_ctx),
      ctx.curr_index + ds.length ≤ ctx.pos →
      vfs_getdents_walk cf ds ctx =
        ({ ctx with curr_index := ctx.curr_index + ds.length }, 0) := by
  intro ds
  induction ds with
  | nil =>
    intro ctx _
    rfl
  | cons d ds ih =>
    intro ctx hle
    simp only [List.length_cons] at hle
    simp only [vfs_getdents_walk]
    rw [vfs_getdents_cb_skip cf ctx d (by omega)]
    dsimp only
    rw [if_pos rfl]
    rw [ih { ctx with curr_index := ctx.curr_index + 1 }
      (by show ctx.curr_index + 1 + ds.length ≤ ctx.pos; omega)]
    dsimp only
    rw [show ctx.curr_index + 1 + ds.length = ctx.curr_index + (ds.length + 1) from by omega]
    rfl

/-- Skipping the first pos − curr_index entries reduces the walk to the
pending suffix with curr_index caught up. -/
theorem vfs_getdents_walk_skip_to (cf : Nat → Nat → Bool) :
    ∀ (k : Nat) (ds : List vfs_dent64) (ctx : vfs_getdents_ctx),
      ctx.pos = ctx.curr_index + k → k ≤ ds.length →
      vfs_getdents_walk cf ds ctx =
        vfs_getdents_walk cf (ds.drop k) { ctx with curr_index := ctx.pos } := by
  intro k
  induction k with
  | zero =>
    intro ds ctx hp _
    rw [List.drop_zero]
    congr 1
    cases ctx
    simp only at hp
    simp [hp]
  | succ k ih =>
    intro ds ctx hp hk
    cases ds with
    | nil => simp at hk
    | cons d ds =>
      simp only [List.length_cons] at hk
      simp only [vfs_getdents_walk]
      rw [vfs_getdents_cb_skip cf ctx d (by omega)]
      dsimp only
      rw [if_pos rfl]
      rw [ih ds { ctx with curr_index := ctx.curr_index + 1 }
        (by show ctx.pos = ctx.curr_index + 1 + k; omega) (by omega)]
      rfl

/-- copy_ok never faults, so every copy list is fine. -/
theorem dirents_copies_ok_copy_ok : ∀ (off : Nat) (ds : List vfs_dent64),
    dirents_copies_ok copy_ok off ds = true := by
  intro off ds
  induction ds generalizing off with
  | nil => rfl
  | cons d ds ih => simp [dirents_copies_ok, copy_ok, ih]

/-- The fit count never exceeds the number of entries. -/
theorem dirents_fit_count_le (buf : Nat) : ∀ (off : Nat) (ds : List vfs_dent64),
    dirents_fit_count buf off ds ≤ ds.length := by
  intro off ds
  induction ds generalizing off with
  | nil => exact Nat.le_refl _
  | cons d ds ih =>
    simp only [dirents_fit_count, List.length_cons]
    by_cases hfit : off + dirent_size d > buf
    · rw [if_pos hfit]
      omega
    · rw [if_neg hfit]
      have := ih (off + dirent_size d)
      omega

/-- When the whole list fits in the remaining buffer, every entry fits. -/
theorem dirents_fit_count_all (buf : Nat) : ∀ (off : Nat) (ds : List vfs_dent64),
    off + dirents_bytes ds ≤ buf →
    dirents_fit_count buf off ds = ds.length := by
  intro off ds
  induction ds generalizing off with
  | nil => intro _; rfl
  | cons d ds ih =>
    intro hle
    simp only [dirents_bytes, List.map_cons, List.sum_cons] at hle
    have hb : dirents_bytes ds = (ds.map dirent_size).sum := rfl
    simp only [dirents_fit_count, List.length_cons]
    rw [if_neg (by omega)]
    rw [ih (off + dirent_size d) (by rw [hb]; omega)]
    omega

/-- Extracting the records back from an emitted write log. -/
theorem writes_records_dirents : ∀ (off : Nat) (ds : List vfs_dent64),
    writes_records (dirents_writes off ds) = ds.map vfs_dent_record := by
  intro off ds
  induction ds generalizing off with
  | nil => rfl
  | cons d ds ih =>
    simp only [dirents_writes, writes_records, List.map_cons, vfs_dent_record]
    rw [ih (off + dirent_size d)]

/-- The emit phase of the walk (curr_index caught up with pos, copies of
the emitted prefix succeeding): with n = the number of leading entries
that fit, either all entries fit — everything is emitted and the walk
returns 0 — or the walk stops at the first non-fitting entry, returning
-EINVAL when nothing at all was emitted and the byte count otherwise. -/
theorem vfs_getdents_walk_emit (cf : Nat → Nat → Bool) :
    ∀ (ds : List vfs_dent64) (ctx : vfs_getdents_ctx),
      ctx.curr_index = ctx.pos →
      dirents_copies_ok cf ctx.offset
        (ds.take (dirents_fit_count ctx.buf_size ctx.offset ds)) = true →
      (dirents_fit_count ctx.buf_size ctx.offset ds = ds.length →
        vfs_getdents_walk cf ds ctx =
          ({ ctx with
             offset := ctx.offset + dirents_bytes ds,
             curr_index := ctx.curr_index + ds.length,
             pos := ctx.pos + ds.length,
             writes := ctx.writes ++ dirents_writes ctx.offset ds }, 0)) ∧
      (dirents_fit_count ctx.buf_size ctx.offset ds < ds.length →
        vfs_getdents_walk cf ds ctx =
          ({ ctx with
             offset := ctx.offset +
               dirents_bytes (ds.take (dirents_fit_count ctx.buf_size ctx.offset ds)),
             curr_index := ctx.curr_index +
               dirents_fit_count ctx.buf_size ctx.offset ds,
             pos := ctx.pos + dirents_fit_count ctx.buf_size ctx.offset ds,
             writes := ctx.writes ++ dirents_writes ctx.offset
               (ds.take (dirents_fit_count ctx.buf_size ctx.offset ds)) },
           if ctx.offset + dirents_bytes
               (ds.take (dirents_fit_count ctx.buf_size ctx.offset ds)) = 0
           then -EINVAL
           else ((ctx.offset + dirents_bytes
               (ds.take (dirents_fit_count ctx.buf_size ctx.offset ds)) : Nat) : Int))) := by
  intro ds
  induction ds with
  | nil =>
    intro ctx hci _
    constructor
    · intro _
      show (ctx, 0) = _
      cases ctx
      simp [dirents_bytes, dirents_writes]
    · intro hlt
      simp at hlt
  | cons d ds ih =>
    intro ctx hci hok
    by_cases hfit : ctx.offset + dirent_size d > ctx.buf_size
    · have hfc : dirents_fit_count ctx.buf_size ctx.offset (d :: ds) = 0 := by
        simp only [dirents_fit_count]
        rw [if_pos hfit]
      constructor
      · intro hlen
        rw [hfc] at hlen
        simp at hlen
      · intro _
        simp only [vfs_getdents_walk]
        rw [vfs_getdents_cb_overflow cf ctx d hci hfit, hfc]
        by_cases hz : ctx.offset = 0
        · rw [if_pos hz]
          dsimp only
          rw [if_neg (by decide)]
          rw [if_pos (by
            show ctx.offset + dirents_bytes ((d :: ds).take 0) = 0
            simp [dirents_bytes, hz])]
          cases ctx
          simp only at hz
          simp [hz, dirents_bytes, dirents_writes]
        · rw [if_neg hz]
          dsimp only
          rw [if_neg (by
            show ¬ ((ctx.offset : Int) = 0)
            exact_mod_cast hz)]
          rw [if_neg (by
            show ¬ (ctx.offset + dirents_bytes ((d :: ds).take 0) = 0)
            simp [dirents_bytes]
            omega)]
          cases ctx
          simp [dirents_bytes, dirents_writes]
    · have hfc : dirents_fit_count ctx.buf_size ctx.offset (d :: ds) =
          1 + dirents_fit_count ctx.buf_size (ctx.offset + dirent_size d) ds := by
        simp only [dirents_fit_count]
        rw [if_neg hfit]
      rw [hfc] at hok
      rw [show (d :: ds).take
            (1 + dirents_fit_count ctx.buf_size (ctx.offset + dirent_size d) ds) =
          d :: ds.take (dirents_fit_count ctx.buf_size (ctx.offset + dirent_size d) ds)
          from by
        rw [show 1 + dirents_fit_count ctx.buf_size (ctx.offset + dirent_size d) ds =
            dirents_fit_count ctx.buf_size (ctx.offset + dirent_size d) ds + 1 from by
          omega]
        rfl] at hok
      simp only [dirents_copies_ok, Bool.and_eq_true, Bool.not_eq_true'] at hok
      obtain ⟨⟨hcp1, hcp2⟩, hokrest⟩ := hok
      simp only [vfs_getdents_walk]
      rw [vfs_getdents_cb_emit cf ctx d hci (by omega) hcp1 hcp2]
      dsimp only
      rw [if_pos rfl]
      obtain ⟨ih1, ih2⟩ := ih
        { ctx with
          writes := ctx.writes ++
            [user_write.hdr ctx.offset d.ino (ctx.offset + dirent_size d)
              (dirent_size d) (vfs_type_to_linux_dirent_type d.typ),
             user_write.name (ctx.offset + linux_dirent64_hdr_size) d.name],
          offset := ctx.offset + dirent_size d,
          curr_index := ctx.curr_index + 1,
          pos := ctx.pos + 1 }
        (by show ctx.curr_index + 1 = ctx.pos + 1; omega)
        (by
          show dirents_copies_ok cf (ctx.offset + dirent_size d) _ = true
          exact hokrest)
      constructor
      · intro hlen
        rw [hfc] at hlen
        simp only [List.length_cons] at hlen
        rw [ih1 (by
          show dirents_fit_count ctx.buf_size (ctx.offset + dirent_size d) ds = ds.length
          omega)]
        have e1 : ctx.pos + 1 + ds.length = ctx.pos + (d :: ds).length := by
          simp only [List.length_cons]
          omega
        have e2 : ctx.curr_index + 1 + ds.length = ctx.curr_index + (d :: ds).length := by
          simp only [List.length_cons]
          omega
        have e3 : ctx.offset + dirent_size d + dirents_bytes ds =
            ctx.offset + dirents_bytes (d :: ds) := by
          simp only [dirents_bytes, List.map_cons, List.sum_cons]
          omega
        have e4 : (ctx.writes ++
              [user_write.hdr ctx.offset d.ino (ctx.offset + dirent_size d)
                (dirent_size d) (vfs_type_to_linux_dirent_type d.typ),
               user_write.name (ctx.offset + linux_dirent64_hdr_size) d.name]) ++
              dirents_writes (ctx.offset + dirent_size d) ds =
            ctx.writes ++ dirents_writes ctx.offset (d :: ds) := by
          simp only [dirents_writes, List.append_assoc, List.cons_append,
            List.nil_append]
        rw [e1, e2, e3, e4]
      · intro hlen
        rw [hfc] at hlen
        simp only [List.length_cons] at hlen
        rw [ih2 (by
          show dirents_fit_count ctx.buf_size (ctx.offset + dirent_size d) ds < ds.length
          omega)]
        rw [hfc]
        rw [show (d :: ds).take
              (1 + dirents_fit_count ctx.buf_size (ctx.offset + dirent_size d) ds) =
            d :: ds.take (dirents_fit_count ctx.buf_size (ctx.offset + dirent_size d) ds)
            from by
          rw [show 1 + dirents_fit_count ctx.buf_size (ctx.offset + dirent_size d) ds =
              dirents_fit_count ctx.buf_size (ctx.offset + dirent_size d) ds + 1 from by
            omega]
          rfl]
        have e1 : ctx.pos + 1 + dirents_fit_count ctx.buf_size
              (ctx.offset + dirent_size d) ds =
            ctx.pos + (1 + dirents_fit_count ctx.buf_size
              (ctx.offset + dirent_size d) ds) := by
          omega
        have e2 : ctx.curr_index + 1 + dirents_fit_count ctx.buf_size
              (ctx.offset + dirent_size d) ds =
            ctx.curr_index + (1 + dirents_fit_count ctx.buf_size
              (ctx.offset + dirent_size d) ds) := by
          omega
        have e3 : ctx.offset + dirent_size d +
            dirents_bytes (ds.take (dirents_fit_count ctx.buf_size
              (ctx.offset + dirent_size d) ds)) =
            ctx.offset + dirents_bytes (d :: ds.take (dirents_fit_count ctx.buf_size
              (ctx.offset + dirent_size d) ds)) := by
          simp only [dirents_bytes, List.map_cons, List.sum_cons]
          omega
        have e4 : (ctx.writes ++
              [user_write.hdr ctx.offset d.ino (ctx.offset + dirent_size d)
                (dirent_size d) (vfs_type_to_linux_dirent_type d.typ),
               user_write.name (ctx.offset + linux_dirent64_hdr_size) d.name]) ++
              dirents_writes (ctx.offset + dirent_size d)
                (ds.take (dirents_fit_count ctx.buf_size
                  (ctx.offset + dirent_size d) ds)) =
            ctx.writes ++ dirents_writes ctx.offset
              (d :: ds.take (dirents_fit_count ctx.buf_size
                (ctx.offset + dirent_size d) ds)) := by
          simp only [dirents_writes, List.append_assoc, List.cons_append,
            List.nil_append]
        rw [e1, e2, e3, e4]

/-- One fault-free vfs_getdents64 call: nothing pending returns 0 with no
state change; a first pending record too large for the buffer returns
-EINVAL with no state change; otherwise the maximal fitting prefix of the
pending entries is written out, the handle pos advances past exactly
those entries, and the byte count is returned. -/
theorem vfs_getdents64_call_spec (dents : List vfs_dent64) (h_pos buf : Nat) :
    (dents.length ≤ h_pos →
      vfs_getdents64 copy_ok dents h_pos buf = (h_pos, [], 0)) ∧
    (∀ d0 pend, dents.drop h_pos = d0 :: pend →
      (buf < dirent_size d0 →
        vfs_getdents64 copy_ok dents h_pos buf = (h_pos, [], -EINVAL)) ∧
      (dirent_size d0 ≤ buf →
        vfs_getdents64 copy_ok dents h_pos buf =
          (h_pos + dirents_fit_count buf 0 (dents.drop h_pos),
           dirents_writes 0 ((dents.drop h_pos).take
             (dirents_fit_count buf 0 (dents.drop h_pos))),
           ((dirents_bytes ((dents.drop h_pos).take
             (dirents_fit_count buf 0 (dents.drop h_pos))) : Nat) : Int)))) := by
  constructor
  · intro hge
    simp only [vfs_getdents64]
    rw [vfs_getdents_walk_skip_all copy_ok dents
      { pos := h_pos, buf_size := buf, offset := 0, curr_index := 0, writes := [] }
      (by show 0 + dents.length ≤ h_pos; omega)]
    dsimp only
    rw [if_pos rfl]
    rfl
  · intro d0 pend hdrop
    have hlt : h_pos < dents.length := by
      by_contra hc
      rw [List.drop_eq_nil_of_le (by omega)] at hdrop
      cases hdrop
    have hskip := vfs_getdents_walk_skip_to copy_ok h_pos dents
      { pos := h_pos, buf_size := buf, offset := 0, curr_index := 0, writes := [] }
      (by show h_pos = 0 + h_pos; omega) (by omega)
    constructor
    · intro hbuf
      have hfc0 : dirents_fit_count buf 0 (dents.drop h_pos) = 0 := by
        rw [hdrop]
        simp only [dirents_fit_count]
        rw [if_pos (by omega)]
      obtain ⟨_, hemit⟩ := vfs_getdents_walk_emit copy_ok (dents.drop h_pos)
        { pos := h_pos, buf_size := buf, offset := 0, curr_index := h_pos, writes := [] }
        rfl (dirents_copies_ok_copy_ok _ _)
      simp only [vfs_getdents64]
      rw [hskip]
      dsimp only
      rw [hemit (by
        show dirents_fit_count buf 0 (dents.drop h_pos) < (dents.drop h_pos).length
        rw [hfc0, hdrop]
        simp)]
      rw [hfc0]
      dsimp only
      have hret : (if (0 : Nat) + dirents_bytes (List.take 0 (List.drop h_pos dents)) = 0
          then (-EINVAL : Int)
          else ((0 + dirents_bytes (List.take 0 (List.drop h_pos dents)) : Nat) : Int)) =
          -EINVAL := by
        rw [if_pos (by simp [dirents_bytes])]
      rw [hret]
      rw [if_neg (by decide)]
      rfl
    · intro hbuf
      have hfc1 : dirents_fit_count buf 0 (dents.drop h_pos) =
          1 + dirents_fit_count buf (0 + dirent_size d0) pend := by
        rw [hdrop]
        simp only [dirents_fit_count]
        rw [if_neg (by omega)]
      obtain ⟨hemit1, hemit2⟩ := vfs_getdents_walk_emit copy_ok (dents.drop h_pos)
        { pos := h_pos, buf_size := buf, offset := 0, curr_index := h_pos, writes := [] }
        rfl (dirents_copies_ok_copy_ok _ _)
      have hble := dirents_fit_count_le buf 0 (dents.drop h_pos)
      have hbpos : 0 < dirents_bytes ((dents.drop h_pos).take
          (dirents_fit_count buf 0 (dents.drop h_pos))) := by
        rw [hfc1, hdrop, show 1 + dirents_fit_count buf (0 + dirent_size d0) pend =
          dirents_fit_count buf (0 + dirent_size d0) pend + 1 from by omega,
          List.take_succ_cons]
        simp only [dirents_bytes, List.map_cons, List.sum_cons]
        have : 0 < dirent_size d0 := by
          simp [dirent_size, linux_dirent64_hdr_size]
        omega
      by_cases hall : dirents_fit_count buf 0 (dents.drop h_pos) =
          (dents.drop h_pos).length
      · simp only [vfs_getdents64]
        rw [hskip]
        dsimp only
        rw [hemit1 hall]
        dsimp only
        rw [if_pos rfl]
        rw [hall, List.take_length]
        rw [show (0 : Nat) + dirents_bytes (List.drop h_pos dents) =
          dirents_bytes (List.drop h_pos dents) from by omega, List.nil_append]
      · have hlt2 : dirents_fit_count buf 0 (dents.drop h_pos) <
            (dents.drop h_pos).length := by omega
        simp only [vfs_getdents64]
        rw [hskip]
        dsimp only
        rw [hemit2 hlt2]
        dsimp only
        have hret : (if (0 : Nat) + dirents_bytes (List.take
              (dirents_fit_count buf 0 (List.drop h_pos dents))
              (List.drop h_pos dents)) = 0
            then (-EINVAL : Int)
            else ((0 + dirents_bytes (List.take
              (dirents_fit_count buf 0 (List.drop h_pos dents))
              (List.drop h_pos dents)) : Nat) : Int)) =
            ((dirents_bytes (List.take
              (dirents_fit_count buf 0 (List.drop h_pos dents))
              (List.drop h_pos dents)) : Nat) : Int) := by
          rw [if_neg (by omega)]
          congr 1
          omega
        rw [hret]
        rw [if_neg (by omega)]
        rw [List.nil_append]

/-- Repeatedly calling vfs_getdents64 with a buffer that holds any single
record yields, in order, the records of all entries from the starting
position. -/
theorem vfs_getdents64_rounds_records (dents : List vfs_dent64) (buf : Nat)
    (hbuf : ∀ d ∈ dents, dirent_size d ≤ buf) :
    ∀ (rounds p : Nat), dents.length - p ≤ rounds →
      ((vfs_getdents64_rounds dents buf rounds p).map writes_records).flatten =
        (dents.drop p).map vfs_dent_record := by
  intro rounds
  induction rounds with
  | zero =>
    intro p hle
    rw [List.drop_eq_nil_of_le (by omega)]
    rfl
  | succ rounds ih =>
    intro p hle
    by_cases hp : dents.length ≤ p
    · rw [List.drop_eq_nil_of_le (by omega)]
      simp only [vfs_getdents64_rounds]
      rw [(vfs_getdents64_call_spec dents p buf).1 hp]
      dsimp only
      have := ih p (by omega)
      rw [List.drop_eq_nil_of_le (by omega)] at this
      simp only [List.map_cons, List.flatten_cons, this]
      rfl
    · have hplt : p < dents.length := by omega
      have hdrop := List.drop_eq_getElem_cons hplt
      have hsz : dirent_size dents[p] ≤ buf :=
        hbuf dents[p] (List.getElem_mem hplt)
      obtain ⟨_, hcase⟩ := vfs_getdents64_call_spec dents p buf
      obtain ⟨_, hemit⟩ := hcase dents[p] (dents.drop (p + 1)) hdrop
      have hfc1 : 1 ≤ dirents_fit_count buf 0 (dents.drop p) := by
        rw [hdrop]
        simp only [dirents_fit_count]
        rw [if_neg (by omega)]
        omega
      have hfcle := dirents_fit_count_le buf 0 (dents.drop p)
      rw [List.length_drop] at hfcle
      simp only [vfs_getdents64_rounds]
      rw [hemit hsz]
      dsimp only
      simp only [List.map_cons, List.flatten_cons]
      rw [writes_records_dirents]
      rw [ih (p + dirents_fit_count buf 0 (dents.drop p)) (by omega)]
      rw [← List.map_append]
      congr 1
      rw [show dents.drop (p + dirents_fit_count buf 0 (dents.drop p)) =
          (dents.drop p).drop (dirents_fit_count buf 0 (dents.drop p)) from by
        rw [List.drop_drop]]
      exact List.take_append_drop _ _

/-! ## C7: vfs_getdents64 resumability -/

/-- C7: a fault-free vfs_getdents64 call fails with -EINVAL and changes
neither the handle position nor the user buffer when even the first
pending record exceeds the buffer; otherwise it writes the maximal prefix
of whole records that fits, returns the byte count and advances pos past
exactly the emitted entries; and when the buffer holds any single record,
repeated one-buffer calls yield, in order, exactly the same records of
all N entries as one single large-buffer call. -/
theorem vfs_getdents64_resumable_spec (dents : List vfs_dent64)
    (h_pos buf bigbuf : Nat) :
    (∀ d0 pend, dents.drop h_pos = d0 :: pend →
      buf < dirent_size d0 →
      vfs_getdents64 copy_ok dents h_pos buf = (h_pos, [], -EINVAL)) ∧
    (∀ d0 pend, dents.drop h_pos = d0 :: pend →
      dirent_size d0 ≤ buf →
      vfs_getdents64 copy_ok dents h_pos buf =
        (h_pos + dirents_fit_count buf 0 (dents.drop h_pos),
         dirents_writes 0 ((dents.drop h_pos).take
           (dirents_fit_count buf 0 (dents.drop h_pos))),
         ((dirents_bytes ((dents.drop h_pos).take
           (dirents_fit_count buf 0 (dents.drop h_pos))) : Nat) : Int))) ∧
    ((∀ d ∈ dents, dirent_size d ≤ buf) → dirents_bytes dents ≤ bigbuf →
      ((vfs_getdents64_rounds dents buf dents.length 0).map writes_records).flatten =
        dents.map vfs_dent_record ∧
      writes_records (vfs_getdents64 copy_ok dents 0 bigbuf).2.1 =
        dents.map vfs_dent_record) := by
  refine ⟨?_, ?_, ?_⟩
  · intro d0 pend hdrop hbuf
    exact ((vfs_getdents64_call_spec dents h_pos buf).2 d0 pend hdrop).1 hbuf
  · intro d0 pend hdrop hbuf
    exact ((vfs_getdents64_call_spec dents h_pos buf).2 d0 pend hdrop).2 hbuf
  · intro hbuf hbig
    constructor
    · have := vfs_getdents64_rounds_records dents buf hbuf dents.length 0 (by omega)
      rw [List.drop_zero] at this
      exact this
    · cases dents with
      | nil =>
        rw [(vfs_getdents64_call_spec [] 0 bigbuf).1 (by simp)]
        rfl
      | cons d0 rest =>
        obtain ⟨_, hemit⟩ := (vfs_getdents64_call_spec (d0 :: rest) 0 bigbuf).2
          d0 rest (by rw [List.drop_zero])
        have hsz : dirent_size d0 ≤ bigbuf := by
          have : dirent_size d0 ≤ dirents_bytes (d0 :: rest) := by
            simp only [dirents_bytes, List.map_cons, List.sum_cons]
            omega
          omega
        rw [hemit hsz]
        dsimp only
        rw [List.drop_zero]
        rw [dirents_fit_count_all bigbuf 0 (d0 :: rest) (by omega)]
        rw [List.take_length]
        exact writes_records_dirents 0 (d0 :: rest)

/-- C7 witness: the spec S6 directory a, bb, ccc read with a 23-byte
buffer one entry at a time yields the same records as one 66-byte call. -/
theorem vfs_getdents64_resumable_spec_witness :
    ((vfs_getdents64_rounds dents_sample 23 dents_sample.length 0).map
        writes_records).flatten =
      dents_sample.map vfs_dent_record :=
  (((vfs_getdents64_resumable_spec dents_sample 0 23 66).2.2)
    (by decide) (by decide)).1

/-- Emitting a fully-fitting, fault-free prefix reduces the walk to the
remaining entries with the context advanced past the prefix. -/
theorem vfs_getdents_walk_emit_prefix (cf : Nat → Nat → Bool)
    (rest : List vfs_dent64) :
    ∀ (ds : List vfs_dent64) (ctx : vfs_getdents_ctx),
      ctx.curr_index = ctx.pos →
      ctx.offset + dirents_bytes ds ≤ ctx.buf_size →
      dirents_copies_ok cf ctx.offset ds = true →
      vfs_getdents_walk cf (ds ++ rest) ctx =
        vfs_getdents_walk cf rest
          { ctx with
            offset := ctx.offset + dirents_bytes ds,
            curr_index := ctx.curr_index + ds.length,
            pos := ctx.pos + ds.length,
            writes := ctx.writes ++ dirents_writes ctx.offset ds } := by
  intro ds
  induction ds with
  | nil =>
    intro ctx hci hle _
    rw [List.nil_append]
    congr 1
    cases ctx
    simp [dirents_bytes, dirents_writes]
  | cons d ds ih =>
    intro ctx hci hle hok
    have hbytes : dirents_bytes (d :: ds) = dirent_size d + dirents_bytes ds := by
      simp only [dirents_bytes, List.map_cons, List.sum_cons]
    rw [hbytes] at hle
    simp only [dirents_copies_ok, Bool.and_eq_true, Bool.not_eq_true'] at hok
    obtain ⟨⟨hcp1, hcp2⟩, hokrest⟩ := hok
    rw [List.cons_append]
    simp only [vfs_getdents_walk]
    rw [vfs_getdents_cb_emit cf ctx d hci (by omega) hcp1 hcp2]
    dsimp only
    rw [if_pos rfl]
    rw [ih
      { ctx with
        writes := ctx.writes ++
          [user_write.hdr ctx.offset d.ino (ctx.offset + dirent_size d)
            (dirent_size d) (vfs_type_to_linux_dirent_type d.typ),
           user_write.name (ctx.offset + linux_dirent64_hdr_size) d.name],
        offset := ctx.offset + dirent_size d,
        curr_index := ctx.curr_index + 1,
        pos := ctx.pos + 1 }
      (by show ctx.curr_index + 1 = ctx.pos + 1; omega)
      (by show ctx.offset + dirent_size d + dirents_bytes ds ≤ ctx.buf_size; omega)
      (by show dirents_copies_ok cf (ctx.offset + dirent_size d) ds = true
          exact hokrest)]
    have e1 : ctx.pos + 1 + ds.length = ctx.pos + (d :: ds).length := by
      simp only [List.length_cons]
      omega
    have e2 : ctx.curr_index + 1 + ds.length = ctx.curr_index + (d :: ds).length := by
      simp only [List.length_cons]
      omega
    have e3 : ctx.offset + dirent_size d + dirents_bytes ds =
        ctx.offset + dirents_bytes (d :: ds) := by
      rw [hbytes]
      omega
    have e4 : (ctx.writes ++
          [user_write.hdr ctx.offset d.ino (ctx.offset + dirent_size d)
            (dirent_size d) (vfs_type_to_linux_dirent_type d.typ),
           user_write.name (ctx.offset + linux_dirent64_hdr_size) d.name]) ++
          dirents_writes (ctx.offset + dirent_size d) ds =
        ctx.writes ++ dirents_writes ctx.offset (d :: ds) := by
      simp only [dirents_writes, List.append_assoc, List.cons_append, List.nil_append]
    rw [e1, e2, e3, e4]

/-! ## C10: vfs_getdents64 user-copy faults -/

/-- C10: vfs_getdents64 is not atomic on a user-copy fault. If, after at
least one record was already emitted in the call, copying the next
record's header or name faults, the call returns -EFAULT: the earlier
records remain written in the user buffer (plus the orphan header when
only the name copy faulted), the handle pos remains advanced past the
emitted entries, and the byte count already written is not reported. A
fault-free retry therefore resumes with exactly the entries from the
faulting one onward, never repeating the already-returned ones. -/
theorem vfs_getdents64_fault_spec (cf : Nat → Nat → Bool)
    (dents : List vfs_dent64) (h_pos buf : Nat)
    (ds1 : List vfs_dent64) (dfail : vfs_dent64) (rest : List vfs_dent64)
    (hsplit : dents.drop h_pos = ds1 ++ dfail :: rest)
    (_hk : 1 ≤ ds1.length)
    (hfit : dirents_bytes ds1 + dirent_size dfail ≤ buf)
    (hok : dirents_copies_ok cf 0 ds1 = true)
    (hfail : cf (dirents_bytes ds1) linux_dirent64_hdr_size = true ∨
      cf (dirents_bytes ds1 + linux_dirent64_hdr_size) (dfail.name.length + 1) = true) :
    (vfs_getdents64 cf dents h_pos buf).2.2 = -EFAULT ∧
    (vfs_getdents64 cf dents h_pos buf).1 = h_pos + ds1.length ∧
    (cf (dirents_bytes ds1) linux_dirent64_hdr_size = true →
      (vfs_getdents64 cf dents h_pos buf).2.1 = dirents_writes 0 ds1) ∧
    (cf (dirents_bytes ds1) linux_dirent64_hdr_size = false →
      (vfs_getdents64 cf dents h_pos buf).2.1 =
        dirents_writes 0 ds1 ++
          [user_write.hdr (dirents_bytes ds1) dfail.ino
            (dirents_bytes ds1 + dirent_size dfail) (dirent_size dfail)
            (vfs_type_to_linux_dirent_type dfail.typ)]) ∧
    (∀ bigbuf, dirents_bytes (dfail :: rest) ≤ bigbuf →
      writes_records (vfs_getdents64 copy_ok dents (h_pos + ds1.length) bigbuf).2.1 =
        (dfail :: rest).map vfs_dent_record) := by
  have hlt : h_pos < dents.length := by
    by_contra hc
    rw [List.drop_eq_nil_of_le (by omega)] at hsplit
    simp at hsplit
  have hdrop2 : dents.drop (h_pos + ds1.length) = dfail :: rest := by
    rw [← List.drop_drop, hsplit, List.drop_left]
  have hretry : ∀ bigbuf, dirents_bytes (dfail :: rest) ≤ bigbuf →
      writes_records (vfs_getdents64 copy_ok dents (h_pos + ds1.length) bigbuf).2.1 =
        (dfail :: rest).map vfs_dent_record := by
    intro bigbuf hbig
    obtain ⟨_, hemit⟩ := (vfs_getdents64_call_spec dents (h_pos + ds1.length)
      bigbuf).2 dfail rest hdrop2
    have hsz : dirent_size dfail ≤ bigbuf := by
      have : dirent_size dfail ≤ dirents_bytes (dfail :: rest) := by
        simp only [dirents_bytes, List.map_cons, List.sum_cons]
        omega
      omega
    rw [hemit hsz]
    dsimp only
    rw [hdrop2, dirents_fit_count_all bigbuf 0 (dfail :: rest) (by omega),
      List.take_length]
    exact writes_records_dirents 0 (dfail :: rest)
  have hskip := vfs_getdents_walk_skip_to cf h_pos dents
    { pos := h_pos, buf_size := buf, offset := 0, curr_index := 0, writes := [] }
    (by show h_pos = 0 + h_pos; omega) (by omega)
  have hpre := vfs_getdents_walk_emit_prefix cf (dfail :: rest) ds1
    { pos := h_pos, buf_size := buf, offset := 0, curr_index := h_pos, writes := [] }
    rfl (by show (0 : Nat) + dirents_bytes ds1 ≤ buf; omega)
    (by show dirents_copies_ok cf 0 ds1 = true; exact hok)
  by_cases hcf : cf (dirents_bytes ds1) linux_dirent64_hdr_size = true
  · have hmain : vfs_getdents64 cf dents h_pos buf =
        (h_pos + ds1.length, dirents_writes 0 ds1, -EFAULT) := by
      simp only [vfs_getdents64]
      rw [hskip]
      dsimp only
      rw [hsplit, hpre]
      dsimp only
      rw [show (0 : Nat) + dirents_bytes ds1 = dirents_bytes ds1 from by omega,
        List.nil_append]
      simp only [vfs_getdents_walk]
      rw [vfs_getdents_cb_fault_hdr cf _ dfail rfl
        (by show dirents_bytes ds1 + dirent_size dfail ≤ buf; omega) hcf]
      dsimp only
      rw [if_neg (by decide)]
      dsimp only
      rw [if_neg (by decide)]
    rw [hmain]
    refine ⟨rfl, rfl, fun _ => rfl, ?_, hretry⟩
    intro hcontra
    rw [hcf] at hcontra
    cases hcontra
  · have hcf' : cf (dirents_bytes ds1) linux_dirent64_hdr_size = false := by
      rcases Bool.eq_false_or_eq_true (cf (dirents_bytes ds1) linux_dirent64_hdr_size)
        with h | h
      · exact absurd h hcf
      · exact h
    have hname : cf (dirents_bytes ds1 + linux_dirent64_hdr_size)
        (dfail.name.length + 1) = true := by
      rcases hfail with hf | hf
      · exact absurd hf hcf
      · exact hf
    have hmain : vfs_getdents64 cf dents h_pos buf =
        (h_pos + ds1.length,
         dirents_writes 0 ds1 ++
           [user_write.hdr (dirents_bytes ds1) dfail.ino
             (dirents_bytes ds1 + dirent_size dfail) (dirent_size dfail)
             (vfs_type_to_linux_dirent_type dfail.typ)],
         -EFAULT) := by
      simp only [vfs_getdents64]
      rw [hskip]
      dsimp only
      rw [hsplit, hpre]
      dsimp only
      rw [show (0 : Nat) + dirents_bytes ds1 = dirents_bytes ds1 from by omega,
        List.nil_append]
      simp only [vfs_getdents_walk]
      rw [vfs_getdents_cb_fault_name cf _ dfail rfl
        (by show dirents_bytes ds1 + dirent_size dfail ≤ buf; omega) hcf' hname]
      dsimp only
      rw [if_neg (by decide)]
      dsimp only
      rw [if_neg (by decide)]
    rw [hmain]
    refine ⟨rfl, rfl, ?_, fun _ => rfl, hretry⟩
    intro hcontra
    rw [hcf'] at hcontra
    cases hcontra

/-- C10 witness: on the sample directory with a copy environment that
faults on the second record's name copy, the call returns -EFAULT with
pos advanced past the first record only. -/
theorem vfs_getdents64_fault_spec_witness :
    (vfs_getdents64 copy_fault_sample dents_sample 0 1000).2.2 = -EFAULT :=
  (vfs_getdents64_fault_spec copy_fault_sample dents_sample 0 1000
    [{ ino := 1, typ := .file, name := "a" }]
    { ino := 2, typ := .dir, name := "bb" }
    [{ ino := 3, typ := .file, name := "ccc" }]
    (by decide) (by decide) (by decide) (by decide)
    (Or.inr (by decide))).1
